import Mathlib

/-!
Shallow embedding of the smallz4 LZ4 compressor (smallz4.hpp, `smallz4::compress` and
its helpers) and of the frame decompressor (`unlz4` in smallz4.cpp, null-dictionary
path), over byte sequences modelled as `List Nat` (each byte < 256) and C arrays
modelled as update-chains of functions `Nat → Nat`.

Positions are absolute offsets into the logical input stream: the source accesses
`data[x - dataZero]` where `data` is a span starting at absolute offset `dataZero`
inside one contiguous buffer, so every such access reads the input byte at absolute
offset `x`; the embedding uses that offset directly.  Block bases are multiples of
4 MiB, hence of 65536, so the source's ring index `i & MaxDistance` (block-relative)
equals `p % 65536` for the absolute position `p`.

Loops are given fuel; every fuel constant used by the top-level definitions is large
enough that the fuel never runs out on the corresponding source loop (the chain walk
makes at most 65536 steps because its accumulated distance grows each step and is
capped at 65535; the other loops advance a cursor bounded by the input length).

Bit operations on values proved to be in range are written arithmetically:
`x >> k` is `x / 2^k`, `x & (2^k - 1)` is `x % 2^k`, and `a | b` for disjoint
operands is `a + b` (all reads of C memory yield bytes < 256).
-/

set_option maxRecDepth 10000

namespace Smallz4

/-- Write one cell of a C array modelled as a function. -/
def upd (f : Nat → Nat) (i v : Nat) : Nat → Nat := fun j => if j = i then v else f j

/-- Write one cell of the `lastHash` table (sentinel `~0` modelled as `none`). -/
def updO (f : Nat → Option Nat) (i : Nat) (v : Option Nat) : Nat → Option Nat :=
  fun j => if j = i then v else f j

/-- Byte of the input at absolute position `p`; out-of-range reads (which the verified
    control flow never performs) yield 0. -/
def byteAt (s : List Nat) (p : Nat) : Nat := s.getD p 0

/-- The 32-bit little-endian word at position `p`, as read by `match4` and the hash. -/
def input4 (s : List Nat) (p : Nat) : Nat :=
  byteAt s p + 256 * byteAt s (p + 1) + 65536 * byteAt s (p + 2) +
    16777216 * byteAt s (p + 3)

/-- `getHash32`: `((fourBytes * 48271) >> (32 - HashBits)) & (HashSize - 1)` with
    32-bit multiplication, `HashBits = 20`. -/
def getHash32 (fourBytes : Nat) : Nat :=
  fourBytes * 48271 % 4294967296 / 4096 % 1048576

/-- A 32-bit value as 4 little-endian bytes (`x & 0xFF`, `(x >> 8) & 0xFF`, ...). -/
def le4 (x : Nat) : List Nat :=
  [x % 256, x / 256 % 256, x / 65536 % 256, x / 16777216 % 256]

/-- The `n` input bytes starting at absolute position `a`. -/
def segBytes (s : List Nat) (a n : Nat) : List Nat :=
  (List.range n).map fun k => byteAt s (a + k)

/-- The `n` memory bytes starting at address `c`. -/
def memSeg (mem : Nat → Nat) (c n : Nat) : List Nat :=
  (List.range n).map fun k => mem (c + k)

/-! ## Decoder (`unlz4`, null dictionary) -/

/-- Decoder state: input cursor, the 64 KiB `history` ring, its write position `pos`,
    and the output flushed so far. -/
structure DecState where
  cur : Nat
  hist : Nat → Nat
  pos : Nat
  out : List Nat

/-- Contents of the first `n` cells of the history ring, as a list. -/
def histList (h : Nat → Nat) (n : Nat) : List Nat := (List.range n).map h

/-- `history[pos++] = b`, flushing the ring to the output when `pos` wraps. -/
def pushB (st : DecState) (b : Nat) : DecState :=
  let h := upd st.hist st.pos b
  if st.pos + 1 = 65536 then ⟨st.cur, h, 0, st.out ++ histList h 65536⟩
  else ⟨st.cur, h, st.pos + 1, st.out⟩

/-- Literal copy, fast loop (no flush test; taken when `pos + n < 65536`). -/
def copyLitsFast (mem : Nat → Nat) : Nat → DecState → DecState
  | 0, st => st
  | n + 1, st =>
      copyLitsFast mem n ⟨st.cur + 1, upd st.hist st.pos (mem st.cur), st.pos + 1, st.out⟩

/-- Literal copy with flush on ring wrap (slow loop; also the raw-block copy loop,
    whose body is identical). -/
def copyLitsSlow (mem : Nat → Nat) : Nat → DecState → DecState
  | 0, st => st
  | n + 1, st =>
      let st1 := pushB st (mem st.cur)
      copyLitsSlow mem n ⟨st.cur + 1, st1.hist, st1.pos, st1.out⟩

/-- The do-while loop reading length-overflow bytes: adds bytes until one is below 255.
    Returns the new cursor and the accumulated length. -/
def readExt (mem : Nat → Nat) : Nat → Nat → Nat → Option (Nat × Nat)
  | 0, _, _ => none
  | fuel + 1, cur, acc =>
      let c := mem cur
      if c = 255 then readExt mem fuel (cur + 1) (acc + c) else some (cur + 1, acc + c)

/-- Byte-wise match copy through the ring with flush and read-side wrap
    (the general branch of the match copy). -/
def ringCopy : Nat → Nat → DecState → DecState
  | 0, _, st => st
  | n + 1, ref, st => ringCopy n ((ref + 1) % 65536) (pushB st (st.hist ref))

/-- Overlapping in-ring byte-wise copy, no wrap possible (middle branch). -/
def overlapCopy : Nat → Nat → DecState → DecState
  | 0, _, st => st
  | n + 1, ref, st =>
      overlapCopy n (ref + 1) ⟨st.cur, upd st.hist st.pos (st.hist ref), st.pos + 1, st.out⟩

/-- `memcpy(history + pos, history + ref, ml)` for non-overlapping in-ring ranges. -/
def memcpyHist (st : DecState) (ref ml : Nat) : DecState :=
  ⟨st.cur,
   fun j => if st.pos ≤ j ∧ j < st.pos + ml then st.hist (ref + (j - st.pos)) else st.hist j,
   st.pos + ml, st.out⟩

/-- Match copy dispatch, exactly as in the source. -/
def decodeMatchCopy (st : DecState) (delta ml : Nat) : DecState :=
  let ref := if delta ≤ st.pos then st.pos - delta else 65536 + st.pos - delta
  if st.pos + ml < 65536 ∧ ref + ml < 65536 then
    if ref + ml ≤ st.pos ∨ st.pos + ml ≤ ref then memcpyHist st ref ml
    else overlapCopy ml ref st
  else ringCopy ml ref st

/-- Fatal decoder errors: one constructor per `unlz4error` call site reachable with a
    null dictionary. -/
inductive DecErr where
  | invalidSignature
  | unsupportedVersion
  | invalidOffset
deriving DecidableEq, Repr

/-- The token/sequence loop decoding one compressed block.  `none` = fuel ran out. -/
def decodeSeqLoop (mem : Nat → Nat) (F blockSize : Nat) :
    Nat → Nat → DecState → Option (Except DecErr DecState)
  | 0, _, _ => none
  | fuel + 1, blockOffset, st =>
      if blockOffset < blockSize then
        let token := mem st.cur
        let cur0 := st.cur + 1
        let bo1 := blockOffset + 1
        match (if token / 16 = 15 then readExt mem F cur0 (token / 16)
               else some (cur0, token / 16)) with
        | none => none
        | some ext1 =>
            let cur1 := ext1.1
            let numLiterals := ext1.2
            let bo2 := bo1 + (cur1 - cur0) + numLiterals
            let st1 : DecState := ⟨cur1, st.hist, st.pos, st.out⟩
            let st2 := if st1.pos + numLiterals < 65536 then copyLitsFast mem numLiterals st1
                       else copyLitsSlow mem numLiterals st1
            if bo2 = blockSize then some (.ok st2)
            else
              let delta := mem st2.cur + 256 * mem (st2.cur + 1)
              let cur2 := st2.cur + 2
              if delta = 0 then some (.error .invalidOffset)
              else
                let bo3 := bo2 + 2
                match (if token % 16 = 15 then readExt mem F cur2 (4 + token % 16)
                       else some (cur2, 4 + token % 16)) with
                | none => none
                | some ext2 =>
                    let cur3 := ext2.1
                    let matchLength := ext2.2
                    let bo4 := bo3 + (cur3 - cur2)
                    let st3 := decodeMatchCopy ⟨cur3, st2.hist, st2.pos, st2.out⟩ delta matchLength
                    decodeSeqLoop mem F blockSize fuel bo4 st3
      else some (.ok st)

/-- The block loop of the decoder: 4-byte size prefix, raw/compressed dispatch,
    end at payload size 0, optional block-checksum skip. -/
def decodeBlockLoop (mem : Nat → Nat) (F : Nat) (hasBlockChecksum : Bool) :
    Nat → DecState → Option (Except DecErr DecState)
  | 0, _ => none
  | fuel + 1, st =>
      let bs0 := mem st.cur + 256 * mem (st.cur + 1) + 65536 * mem (st.cur + 2) +
        16777216 * mem (st.cur + 3)
      let st0 : DecState := ⟨st.cur + 4, st.hist, st.pos, st.out⟩
      let blockSize := bs0 % 2147483648
      if blockSize = 0 then some (.ok st0)
      else
        match (if bs0 < 2147483648 then decodeSeqLoop mem F blockSize F 0 st0
               else some (.ok (copyLitsSlow mem blockSize st0))) with
        | none => none
        | some (.error e) => some (.error e)
        | some (.ok st1) =>
            let st2 : DecState :=
              if hasBlockChecksum then ⟨st1.cur + 4, st1.hist, st1.pos, st1.out⟩ else st1
            decodeBlockLoop mem F hasBlockChecksum fuel st2

/-- The frame decompressor `unlz4` with a null dictionary; the frame starts at memory
    offset 0.  The `endp` argument models the `end` parameter, which the source
    receives but never consults. -/
def unlz4 (mem : Nat → Nat) (endp : Nat) (F : Nat) : Option (Except DecErr (List Nat)) :=
  let signature := mem 0 + 256 * mem 1 + 65536 * mem 2 + 16777216 * mem 3
  if signature ≠ 0x184D2204 then some (.error .invalidSignature)
  else
    let flags := mem 4
    let hasBlockChecksum := flags &&& 16 ≠ 0
    let hasContentSize := flags &&& 8 ≠ 0
    let hasDictionaryID := flags &&& 1 ≠ 0
    if flags / 64 ≠ 1 then some (.error .unsupportedVersion)
    else
      let numIgnore := 1 + (if hasContentSize then 8 else 0) +
        (if hasDictionaryID then 4 else 0) + 1
      let st0 : DecState := ⟨5 + numIgnore, fun _ => 0, 0, []⟩
      match decodeBlockLoop mem F hasBlockChecksum F st0 with
      | none => none
      | some (.error e) => some (.error e)
      | some (.ok st) => some (.ok (st.out ++ histList st.hist st.pos))

/-- Run the decoder over a byte list placed at the start of memory, with ample fuel. -/
def unlz4List (input : List Nat) : Option (Except DecErr (List Nat)) :=
  unlz4 (fun i => input.getD i 0) input.length (input.length + 70000)

/-! ## Encoder (`smallz4::compress`) -/

/-- Phase 1 of `findLongestMatch`: backward scan in 4-byte steps from `atLeast - 4`
    toward the current position, against the candidate at distance `D`. -/
def flmPhase1 (s : List Nat) (pos D : Nat) : Nat → Nat → Nat
  | 0, a => a
  | fuel + 1, a =>
      if pos < a ∧ input4 s (a - D) = input4 s a then flmPhase1 s pos D fuel (a - 4) else a

/-- Phase 2 fast loop: forward scan in 4-byte steps while below `stop`. -/
def flmPhase2Fast (s : List Nat) (D stop : Nat) : Nat → Nat → Nat
  | 0, a => a
  | fuel + 1, a =>
      if a + 4 ≤ stop ∧ input4 s (a - D) = input4 s a then flmPhase2Fast s D stop fuel (a + 4)
      else a

/-- Phase 2 slow loop: forward scan byte by byte while below `stop`. -/
def flmPhase2Slow (s : List Nat) (D stop : Nat) : Nat → Nat → Nat
  | 0, a => a
  | fuel + 1, a =>
      if a < stop ∧ byteAt s (a - D) = byteAt s a then flmPhase2Slow s D stop fuel (a + 1)
      else a

/-- The candidate loop of `findLongestMatch`.  `steps` is the remaining chain budget
    (`uint16`, decremented with wrap on each recorded match).  The slot index
    `(pos - totalDistance) & MaxDistance` is written `(pos + 65536 - td) % 65536`,
    which agrees with the 2^64-wrapping source expression because `td ≤ 65535`. -/
def flmLoop (s : List Nat) (pos stop : Nat) (chain : Nat → Nat) (F : Nat) :
    Nat → Nat → Nat → Nat → Nat → Nat → Nat × Nat
  | 0, _, _, _, bl, bd => (bl, bd)
  | fuel + 1, distance, totalDistance, steps, bl, bd =>
      if distance = 0 then (bl, bd)
      else
        let td := totalDistance + distance
        if 65535 < td then (bl, bd)
        else
          let nextDistance := chain ((pos + 65536 - td) % 65536)
          let atLeast := pos + bl + 1
          if stop < atLeast then (bl, bd)
          else
            let p1 := flmPhase1 s pos td F (atLeast - 4)
            if pos < p1 then flmLoop s pos stop chain F fuel nextDistance td steps bl bd
            else
              let p2 := flmPhase2Slow s td stop F (flmPhase2Fast s td stop F atLeast)
              let steps1 := (steps + 65535) % 65536
              if steps1 = 0 then (p2 - pos, td)
              else flmLoop s pos stop chain F fuel nextDistance td steps1 (p2 - pos) td

/-- `findLongestMatch` at absolute position `pos`, not matching at or beyond `stop`
    (`= nextBlock - BlockEndLiterals`).  Returns (length, distance); the distance
    keeps its input value `dist0` when no match is recorded, since the source writes
    the out-parameter only on success. -/
def findLongestMatch (s : List Nat) (pos stop : Nat) (chain : Nat → Nat)
    (maxChainLength F dist0 : Nat) : Nat × Nat :=
  flmLoop s pos stop chain F F (chain (pos % 65536)) 0 maxChainLength 1 dist0

/-- The hash-chain walk in `compress` that searches the most recent position whose
    first four bytes equal `four`; returns (success, accumulated distance).  The
    `uint64` step `lastHashMatch -= next` is written as plain `Nat` subtraction: the
    walk only reads chain entries whose stored distance never exceeds the position
    they belong to, so the subtraction cannot underflow on reachable states. -/
def exactWalk (s : List Nat) (dataZero : Nat) (prevHash : Nat → Nat) (four hash : Nat) :
    Nat → Nat → Nat → Bool × Nat
  | 0, _, distance => (false, distance)
  | fuel + 1, lhm, distance =>
      let currentFour := input4 s lhm
      if currentFour = four then (true, distance)
      else if getHash32 currentFour ≠ hash then (false, distance)
      else
        let next := prevHash (lhm % 65536)
        if next = 0 then (false, distance)
        else
          let d2 := distance + next
          if 65535 < d2 then (false, d2)
          else
            let lhm2 := lhm - next
            if lhm2 < dataZero then (false, d2)
            else exactWalk s dataZero prevHash four hash fuel lhm2 d2

/-- Persistent encoder state: `lastHash` (sentinel = `none`), and the two 65536-slot
    chain rings `previousHash` / `previousExact` (`EndOfChain = 0`). -/
structure EncState where
  lastHash : Nat → Option Nat
  prevHash : Nat → Nat
  prevExact : Nat → Nat

/-- The per-block match table: `lengths` and `distances`, indexed block-relative. -/
structure Matches where
  lengths : Nat → Nat
  distances : Nat → Nat

/-- Per-block loop state of the match-finding loop. -/
structure BlockSt where
  enc : EncState
  m : Matches
  skipMatches : Nat
  lazyEvaluation : Bool

/-- Chain update at position `p`: writes `lastHash[hash]`, `previousHash` and
    `previousExact` at slot `p % 65536`.  Returns the updated state and
    `some distance` exactly when the exact walk found a four-byte match
    (on which the source falls through toward the match finder). -/
def chainUpdate (s : List Nat) (dataZero : Nat) (enc : EncState) (p : Nat) :
    EncState × Option Nat :=
  let four := input4 s p
  let hash := getHash32 four
  let lh2 := updO enc.lastHash hash (some p)
  let prevIndex := p % 65536
  match enc.lastHash hash with
  | none => (⟨lh2, upd enc.prevHash prevIndex 0, upd enc.prevExact prevIndex 0⟩, none)
  | some lhm =>
      let distance := p - lhm
      if 65535 < distance then
        (⟨lh2, upd enc.prevHash prevIndex 0, upd enc.prevExact prevIndex 0⟩, none)
      else
        let ph2 := upd enc.prevHash prevIndex distance
        match exactWalk s dataZero ph2 four hash 70000 lhm distance with
        | (false, _) => (⟨lh2, ph2, upd enc.prevExact prevIndex 0⟩, none)
        | (true, dist) => (⟨lh2, ph2, upd enc.prevExact prevIndex dist⟩, some dist)

/-- One iteration of the match-finder loop at absolute position `p`
    (block-relative `i = p - lastBlock`; `i < 0` is `p < lastBlock`).
    `L ≤ 6` is `isLazy || isGreedy`. -/
def mfStep (s : List Nat) (L F lastBlock nextBlock dataZero : Nat) (p : Nat)
    (st : BlockSt) : BlockSt :=
  if lastBlock < p ∧ byteAt s p = byteAt s (p - 1) ∧
      st.m.distances (p - 1 - lastBlock) = 1 ∧ 65299 < st.m.lengths (p - 1 - lastBlock) then
    ⟨st.enc,
     ⟨upd st.m.lengths (p - lastBlock) (st.m.lengths (p - 1 - lastBlock) - 1),
      upd st.m.distances (p - lastBlock) 1⟩,
     st.skipMatches, st.lazyEvaluation⟩
  else
    let r := chainUpdate s dataZero st.enc p
    match r.2 with
    | none => ⟨r.1, st.m, st.skipMatches, st.lazyEvaluation⟩
    | some _ =>
        if p < lastBlock then ⟨r.1, st.m, st.skipMatches, st.lazyEvaluation⟩
        else
          let i := p - lastBlock
          if 0 < st.skipMatches then
            let sk := st.skipMatches - 1
            if ¬st.lazyEvaluation then ⟨r.1, st.m, sk, st.lazyEvaluation⟩
            else
              let fr := findLongestMatch s p (nextBlock - 5) r.1.prevExact L F
                (st.m.distances i)
              let m2 : Matches := ⟨upd st.m.lengths i fr.1, upd st.m.distances i fr.2⟩
              if L ≤ 6 ∧ fr.1 ≠ 1 then ⟨r.1, m2, fr.1, sk = 0⟩
              else ⟨r.1, m2, sk, false⟩
          else
            let fr := findLongestMatch s p (nextBlock - 5) r.1.prevExact L F
              (st.m.distances i)
            let m2 : Matches := ⟨upd st.m.lengths i fr.1, upd st.m.distances i fr.2⟩
            if L ≤ 6 ∧ fr.1 ≠ 1 then ⟨r.1, m2, fr.1, st.skipMatches = 0⟩
            else ⟨r.1, m2, st.skipMatches, st.lazyEvaluation⟩

/-- The per-position loop: runs while `i + BlockEndNoMatch ≤ blockSize`
    (as absolute positions: `p + 12 ≤ nextBlock`) and compression is enabled. -/
def matchLoop (s : List Nat) (L F lastBlock nextBlock dataZero : Nat) :
    Nat → Nat → BlockSt → BlockSt
  | 0, _, st => st
  | fuel + 1, p, st =>
      if p + 12 ≤ nextBlock ∧ L ≠ 0 then
        matchLoop s L F lastBlock nextBlock dataZero fuel (p + 1)
          (mfStep s L F lastBlock nextBlock dataZero p st)
      else st

/-- Inner loop of `estimateCosts`, trying all match lengths 4..ml
    (`count` = remaining lengths, `len` = next length to try). -/
def tryLengths (cost : Nat → Nat) (i : Nat) :
    Nat → Nat → Nat → Nat → Nat → Nat → Nat × Nat
  | 0, _, _, _, bl, mc => (bl, mc)
  | count + 1, len, extraCost, nci, bl, mc =>
      let cc := cost (i + len) + extraCost
      let bl2 := if cc ≤ mc then len else bl
      let mc2 := if cc ≤ mc then cc else mc
      let ec2 := if len = nci then extraCost + 1 else extraCost
      let nci2 := if len = nci then nci + 255 else nci
      tryLengths cost i count (len + 1) ec2 nci2 bl2 mc2

/-- Backward DP loop of `estimateCosts`; position handled next is `count - 1`. -/
def ecLoop (dists : Nat → Nat) :
    Nat → (Nat → Nat) → (Nat → Nat) → Nat → (Nat → Nat) × (Nat → Nat)
  | 0, cost, lengths, _ => (cost, lengths)
  | count + 1, cost, lengths, numLiterals =>
      let i := count
      let nl := numLiterals + 1
      let mc0 := cost (i + 1) + 1
      let mc1 := if 15 ≤ nl ∧ (nl = 15 ∨ (270 ≤ nl ∧ (nl - 15) % 255 = 0)) then mc0 + 1
        else mc0
      let ml := lengths i
      let blmc : Nat × Nat :=
        if 65299 ≤ ml ∧ dists i = 1 then (ml, cost (i + ml) + 4 + (ml - 19) / 255)
        else tryLengths cost i (ml - 3) 4 3 18 1 mc1
      ecLoop dists count (upd cost i blmc.2) (upd lengths i blmc.1)
        (if blmc.1 ≠ 1 then 0 else nl)

/-- `estimateCosts` over a block of `blockEnd` positions: positions
    `blockEnd - 6` down to `0`, starting with 5 trailing forced literals. -/
def estimateCosts (m : Matches) (blockEnd : Nat) : Matches :=
  ⟨(ecLoop m.distances (blockEnd - 5) (fun _ => 0) m.lengths 5).2, m.distances⟩

/-- Length-overflow encoding: 255s then the final remainder byte (< 255). -/
def lenExt : Nat → Nat → List Nat
  | 0, x => [x]
  | fuel + 1, x => if 255 ≤ x then 255 :: lenExt fuel (x - 255) else [x]

/-- Bytes of one serialized sequence: token, literal-length overflow, literal bytes,
    then (unless this is the final literal-only token) the 2-byte offset and the
    match-length overflow.  `length - 4` cannot underflow on reachable inputs
    (every emitted match has length ≥ 4). -/
def seqBytes (s : List Nat) (F base litFrom numLit : Nat) (lastTok : Bool)
    (length distance : Nat) : List Nat :=
  let matchLength : Nat := if lastTok then 0 else length - 4
  let tokenLow : Nat := if matchLength < 15 then matchLength else 15
  let head :=
    if numLit < 15 then [16 * numLit + tokenLow]
    else (240 + tokenLow) :: lenExt F (numLit - 15)
  let head2 := head ++ (List.range numLit).map fun k => byteAt s (base + litFrom + k)
  if lastTok ∧ 0 < numLit then head2
  else
    head2 ++ [distance % 256, distance / 256] ++
      (if 15 ≤ matchLength then lenExt F (matchLength - 15) else [])

/-- The walk of `selectBestMatches` over the decided match table. -/
def selectLoop (s : List Nat) (F : Nat) (lengths dists : Nat → Nat) (n base : Nat) :
    Nat → Nat → Nat → Nat → List Nat
  | 0, _, _, _ => []
  | fuel + 1, offset, litFrom, numLit =>
      if offset < n then
        if lengths offset ≤ 1 then
          let lf := if numLit = 0 then offset else litFrom
          if offset + 1 < n then
            selectLoop s F lengths dists n base fuel (offset + 1) lf (numLit + 1)
          else seqBytes s F base lf (numLit + 1) true 0 0
        else
          seqBytes s F base litFrom numLit false (lengths offset) (dists offset) ++
            selectLoop s F lengths dists n base fuel (offset + lengths offset) litFrom 0
      else []

/-- `selectBestMatches` over a block of `n` positions starting at absolute `base`. -/
def selectBestMatches (s : List Nat) (F : Nat) (m : Matches) (n base : Nat) : List Nat :=
  selectLoop s F m.lengths m.distances n base (n + 1) 0 0 0

/-- Initial encoder state: empty `lastHash`, both chain rings all `EndOfChain`. -/
def encInit : EncState := ⟨fun _ => none, fun _ => 0, fun _ => 0⟩

/-- Match finding plus cost optimization for one block `[lastBlock, nextBlock)`:
    the final match table and the updated persistent state.  `lookback` re-indexes
    the last positions of the previous block (clamped to `BlockEndNoMatch`); the
    tail loop forces trailing literals (its out-of-bounds writes at negative block
    indices, possible for a short final block, touch no modelled cell). -/
def blockTable (s : List Nat) (L F : Nat) (enc : EncState)
    (lastBlock nextBlock dataZero : Nat) : Matches × EncState :=
  let blockSize := nextBlock - lastBlock
  let lookback := if L = 0 then 0 else min dataZero 12
  let nMatches := if L = 0 then 0 else blockSize
  let st1 := matchLoop s L F lastBlock nextBlock dataZero (blockSize + 13)
    (lastBlock - lookback) ⟨enc, ⟨fun _ => 0, fun _ => 0⟩, 0, false⟩
  let tailStart := blockSize - 11
  let m2 : Matches :=
    ⟨fun j => if tailStart ≤ j ∧ j < nMatches then 1 else st1.m.lengths j,
     st1.m.distances⟩
  let m3 := if 12 < nMatches ∧ 3 < L then estimateCosts m2 nMatches else m2
  (m3, st1.enc)

/-- Emission of one block: serialized payload, raw fallback when compression did harm
    (or `maxChainLength = 0`), 4-byte little-endian size with bit 31 tagging raw. -/
def compressBlock (s : List Nat) (L F : Nat) (enc : EncState)
    (lastBlock nextBlock dataZero : Nat) : List Nat × EncState :=
  let blockSize := nextBlock - lastBlock
  let nMatches := if L = 0 then 0 else blockSize
  let t := blockTable s L F enc lastBlock nextBlock dataZero
  let compressed := selectBestMatches s F t.1 nMatches lastBlock
  let useCompression := compressed.length < blockSize ∧ L ≠ 0
  let numBytes := if useCompression then compressed.length else blockSize
  let numBytesTagged := numBytes + (if useCompression then 0 else 2147483648)
  let payload := if useCompression then compressed else segBytes s lastBlock blockSize
  (le4 numBytesTagged ++ payload, t.2)

/-- The frame driver block loop: 4 MiB blocks, then the window-trim bookkeeping
    (`dataZero` advances so the span keeps at most the last 64 KiB). -/
def compressBlocksLoop (s : List Nat) (L F : Nat) :
    Nat → Nat → Nat → EncState → List Nat
  | 0, _, _, _ => []
  | fuel + 1, nextBlock, dataZero, enc =>
      if nextBlock = s.length then []
      else
        let lastBlock := nextBlock
        let nb2 := min (lastBlock + 4194304) s.length
        let r := compressBlock s L F enc lastBlock nb2 dataZero
        let dataSize := s.length - dataZero
        let dz2 := if 65535 < dataSize then dataZero + (dataSize - 65535) else dataZero
        r.1 ++ compressBlocksLoop s L F fuel nb2 dz2 r.2

/-- The fixed 7-byte frame header: magic `04 22 4D 18`, flags `0x40`,
    block-max-size `0x70`, header checksum `0xDF`. -/
def frameHeader : List Nat := [0x04, 0x22, 0x4D, 0x18, 0x40, 0x70, 0xDF]

/-- The full encoder with an empty dictionary: header, blocks, 4-byte sentinel. -/
def lz4encode (s : List Nat) (L : Nat) : List Nat :=
  frameHeader ++ compressBlocksLoop s L (s.length + 70000) (s.length + 2) 0 0 encInit ++
    [0, 0, 0, 0]

/-- The error raised for the dictionary-prepended path. -/
inductive EncError where
  | dictUnsupported
deriving DecidableEq, Repr

/-- Result of an encoder run: the bytes written to the sink before return or throw,
    and the error if one was thrown. -/
structure EncResult where
  out : List Nat
  err : Option EncError
deriving DecidableEq, Repr

/-- Encoder entry with a dictionary argument: the source throws inside the first
    block-loop iteration, after the frame header has already been dumped. -/
def lz4run (s : List Nat) (L : Nat) (dict : List Nat) : EncResult :=
  if dict.isEmpty then ⟨lz4encode s L, none⟩
  else ⟨frameHeader, some .dictUnsupported⟩

/-- Forward walk over a final match table, listing emitted matches as
    (absolute position, length, distance). -/
def walkMatches (lengths dists : Nat → Nat) (n base : Nat) : Nat → Nat → List (Nat × Nat × Nat)
  | 0, _ => []
  | fuel + 1, offset =>
      if offset < n then
        if lengths offset ≤ 1 then walkMatches lengths dists n base fuel (offset + 1)
        else (base + offset, lengths offset, dists offset) ::
          walkMatches lengths dists n base fuel (offset + lengths offset)
      else []

/-- All matches emitted over the whole stream (blocks emitted raw contribute none). -/
def emittedMatchesLoop (s : List Nat) (L F : Nat) :
    Nat → Nat → Nat → EncState → List (Nat × Nat × Nat)
  | 0, _, _, _ => []
  | fuel + 1, nextBlock, dataZero, enc =>
      if nextBlock = s.length then []
      else
        let lastBlock := nextBlock
        let nb2 := min (lastBlock + 4194304) s.length
        let blockSize := nb2 - lastBlock
        let nMatches := if L = 0 then 0 else blockSize
        let t := blockTable s L F enc lastBlock nb2 dataZero
        let compressed := selectBestMatches s F t.1 nMatches lastBlock
        let here := if compressed.length < blockSize ∧ L ≠ 0 then
            walkMatches t.1.lengths t.1.distances nMatches lastBlock (nMatches + 1) 0
          else []
        let dataSize := s.length - dataZero
        let dz2 := if 65535 < dataSize then dataZero + (dataSize - 65535) else dataZero
        here ++ emittedMatchesLoop s L F fuel nb2 dz2 t.2

/-- The emitted matches of the encoder on input `s` at chain cap `L`. -/
def emittedMatches (s : List Nat) (L : Nat) : List (Nat × Nat × Nat) :=
  emittedMatchesLoop s L (s.length + 70000) (s.length + 2) 0 0 encInit

/-! ## Specification predicates used by the correctness development -/

/-- The history ring faithfully holds the last `min (D.length) 65536` bytes of the
    decoded stream `D`, and `pos` is the ring position of the next byte. -/
def histOK (D : List Nat) (hist : Nat → Nat) (pos : Nat) : Prop :=
  pos = D.length % 65536 ∧
  ∀ k, 1 ≤ k → k ≤ D.length → k ≤ 65536 →
    hist ((D.length - k) % 65536) = D.getD (D.length - k) 0

/-- Decoder-state simulation: the flushed output is the part of `D` before the
    current ring lap, and the ring holds the rest. -/
def decInv (D : List Nat) (st : DecState) : Prop :=
  st.out = D.take (D.length - D.length % 65536) ∧ histOK D st.hist st.pos

/-- `bytes` sit in memory starting at address `c`. -/
def memAt (mem : Nat → Nat) (c : Nat) (bytes : List Nat) : Prop :=
  ∀ j, j < bytes.length → mem (c + j) = bytes.getD j 0

/-- Validity of a decided match table for the block `[base, base + n)`: every entry is
    a literal (length ≤ 1) or a true match: length ≥ 4, starting at least 12 and ending
    at least 5 positions before the block end, with an in-window distance whose source
    bytes equal the matched bytes. -/
def GoodTable (s : List Nat) (base n : Nat) (lengths dists : Nat → Nat) : Prop :=
  ∀ i, lengths i ≤ 1 ∨
    (4 ≤ lengths i ∧ i + 12 ≤ n ∧ i + lengths i + 5 ≤ n ∧
     1 ≤ dists i ∧ dists i ≤ 65535 ∧ dists i ≤ base + i ∧
     ∀ j, j < lengths i → byteAt s (base + i + j) = byteAt s (base + i - dists i + j))

/-- A valid result of `findLongestMatch` at `pos` against `stop`: length at least 4,
    no byte at or beyond `stop` matched, in-window distance, equal bytes. -/
def GoodMatch (s : List Nat) (pos stop l d : Nat) : Prop :=
  4 ≤ l ∧ pos + l ≤ stop ∧ 1 ≤ d ∧ d ≤ 65535 ∧ d ≤ pos ∧
  ∀ j, j < l → byteAt s (pos + j) = byteAt s (pos - d + j)

/-- Invariant of the persistent encoder state after indexing the set `I` of positions,
    the largest being at most `M`: `lastHash` holds indexed positions, and for every
    indexed position still within the 65536-slot ring window, its ring slots hold
    either `EndOfChain` or a valid backward distance to another indexed position —
    for `previousExact` one whose first four bytes are identical. -/
structure EncInv (s : List Nat) (M : Nat) (I : Nat → Prop) (enc : EncState) : Prop where
  hLH : ∀ h q, enc.lastHash h = some q → I q
  hIM : ∀ q, I q → q ≤ M
  hI12 : ∀ q, I q → q + 12 ≤ s.length
  hPH : ∀ q, I q → M - q ≤ 65535 → enc.prevHash (q % 65536) = 0 ∨
    (1 ≤ enc.prevHash (q % 65536) ∧ enc.prevHash (q % 65536) ≤ 65535 ∧
     enc.prevHash (q % 65536) ≤ q ∧ I (q - enc.prevHash (q % 65536)))
  hPE : ∀ q, I q → M - q ≤ 65535 → enc.prevExact (q % 65536) = 0 ∨
    (1 ≤ enc.prevExact (q % 65536) ∧ enc.prevExact (q % 65536) ≤ 65535 ∧
     enc.prevExact (q % 65536) ≤ q ∧ I (q - enc.prevExact (q % 65536)) ∧
     input4 s (q - enc.prevExact (q % 65536)) = input4 s q)

/-- The encoder state is valid for some indexed set with maximum at most `M`. -/
def EncOK (s : List Nat) (M : Nat) (enc : EncState) : Prop := ∃ I, EncInv s M I enc

/-- As `EncOK s p`, with `p` itself freshly indexed. -/
def EncOKp (s : List Nat) (p : Nat) (enc : EncState) : Prop :=
  ∃ I, EncInv s p I enc ∧ I p

/-! ## Concrete inputs used by witnesses and counterexamples -/

/-- The bytes of "Hello World. Hello World!" (25 bytes). -/
def helloWorld : List Nat :=
  [72, 101, 108, 108, 111, 32, 87, 111, 114, 108, 100, 46, 32,
   72, 101, 108, 108, 111, 32, 87, 111, 114, 108, 100, 33]

/-- 16 bytes: "ABCD" four times; its second half matches at distance 4 starting at
    position 4 = 16 - 12. -/
def abcd4 : List Nat := [65, 66, 67, 68, 65, 66, 67, 68, 65, 66, 67, 68, 65, 66, 67, 68]

/-- 24 bytes: "ABC" eight times; exercises the greedy skip logic. -/
def abcPeriodic : List Nat :=
  [65, 66, 67, 65, 66, 67, 65, 66, 67, 65, 66, 67, 65, 66, 67, 65, 66, 67, 65, 66, 67,
   65, 66, 67]

end Smallz4

namespace Smallz4

/-! ## Basic lemmas -/

theorem upd_self (f : Nat → Nat) (i v : Nat) : upd f i v i = v := by simp [upd]

theorem upd_ne (f : Nat → Nat) (i v j : Nat) (h : j ≠ i) : upd f i v j = f j := by
  simp [upd, h]

theorem le4_assemble (x : Nat) (h : x < 4294967296) :
    x % 256 + 256 * (x / 256 % 256) + 65536 * (x / 65536 % 256) +
      16777216 * (x / 16777216 % 256) = x := by omega

theorem le4_length (x : Nat) : (le4 x).length = 4 := rfl

theorem segBytes_length (s : List Nat) (a n : Nat) : (segBytes s a n).length = n := by
  simp [segBytes]

/-! ## Claim theorems: the easy group -/

/-- C10: the decoder's behaviour is independent of its `end` argument — `unlz4` never
    consults it, so for any memory and any two values of `end` it reads the same bytes
    and produces identical results (a truncated frame therefore leads to reads beyond
    the supplied range, not to an error). -/
theorem claim10_end_independent (mem : Nat → Nat) (e1 e2 F : Nat) :
    unlz4 mem e1 F = unlz4 mem e2 F := rfl

/-- C4: encoding the empty input yields exactly the 11 bytes
    `04 22 4D 18 40 70 DF 00 00 00 00`; for every input the first seven output bytes
    are the fixed frame header and the last four are the `00 00 00 00` sentinel. -/
theorem claim4_header_sentinel :
    (∀ L, lz4encode [] L = [0x04, 0x22, 0x4D, 0x18, 0x40, 0x70, 0xDF, 0, 0, 0, 0]) ∧
    ∀ s L, (lz4encode s L).take 7 = frameHeader ∧
      (lz4encode s L).drop ((lz4encode s L).length - 4) = [0, 0, 0, 0] := by
  constructor
  · intro L; rfl
  · intro s L
    have hsplit : lz4encode s L =
        (frameHeader ++ compressBlocksLoop s L (s.length + 70000) (s.length + 2) 0 0
          encInit) ++ [0, 0, 0, 0] := by
      simp [lz4encode, List.append_assoc]
    constructor
    · show (frameHeader ++ (compressBlocksLoop s L (s.length + 70000) (s.length + 2) 0 0
        encInit ++ [0, 0, 0, 0])).take 7 = frameHeader
      exact List.take_left' rfl
    · rw [hsplit]
      have hlen : ((frameHeader ++ compressBlocksLoop s L (s.length + 70000)
          (s.length + 2) 0 0 encInit) ++ [0, 0, 0, 0]).length - 4 =
          (frameHeader ++ compressBlocksLoop s L (s.length + 70000) (s.length + 2) 0 0
            encInit).length := by
        simp; omega
      rw [hlen, List.drop_left]

/-- C8 (amended): for every input and every non-empty dictionary the encoder run fails
    with the dictionary-unsupported error, but the 7-byte frame header has already been
    written to the sink by then — the sink is not left unchanged. -/
theorem claim8_dictionary_rejected (s : List Nat) (L : Nat) (dict : List Nat)
    (h : dict ≠ []) :
    (lz4run s L dict).err = some EncError.dictUnsupported ∧
    (lz4run s L dict).out = frameHeader ∧ (lz4run s L dict).out.length = 7 := by
  have hd : dict.isEmpty = false := by
    cases dict with
    | nil => exact absurd rfl h
    | cons a t => rfl
  refine ⟨?_, ?_, ?_⟩ <;> simp [lz4run, hd, frameHeader]

theorem claim8_dictionary_rejected_witness :
    ([1] : List Nat) ≠ [] ∧
    ((lz4run [] 65535 [1]).err = some EncError.dictUnsupported ∧
     (lz4run [] 65535 [1]).out = frameHeader ∧ (lz4run [] 65535 [1]).out.length = 7) :=
  ⟨by decide, claim8_dictionary_rejected [] 65535 [1] (by decide)⟩

/-- C8 counterexample: with a non-empty dictionary the run does fail, but the output
    sink is not left unchanged — the 7 header bytes have been written. -/
theorem claim8_counterexample :
    (lz4run [] 65535 [1]).err = some EncError.dictUnsupported ∧
    (lz4run [] 65535 [1]).out ≠ [] ∧ (lz4run [] 65535 [1]).out.length = 7 := by decide

/-- C9: a 4-byte block-size prefix whose low 31 bits are zero stops the decoder's block
    loop even with bit 31 set: the prefix `00 00 00 80` behaves exactly like the
    `00 00 00 00` sentinel, and decoding then flushes the remaining history (shown
    concretely on a one-raw-block frame terminated by `00 00 00 80`). -/
theorem claim9_highbit_sentinel :
    (∀ mem F hbc fuel (st : DecState),
       mem st.cur = 0 → mem (st.cur + 1) = 0 → mem (st.cur + 2) = 0 →
       mem (st.cur + 3) = 128 →
       decodeBlockLoop mem F hbc (fuel + 1) st =
         some (.ok ⟨st.cur + 4, st.hist, st.pos, st.out⟩)) ∧
    (∀ mem F hbc fuel (st : DecState),
       mem st.cur = 0 → mem (st.cur + 1) = 0 → mem (st.cur + 2) = 0 →
       mem (st.cur + 3) = 0 →
       decodeBlockLoop mem F hbc (fuel + 1) st =
         some (.ok ⟨st.cur + 4, st.hist, st.pos, st.out⟩)) ∧
    unlz4List ([0x04, 0x22, 0x4D, 0x18, 0x40, 0x70, 0xDF] ++ [3, 0, 0, 128] ++
      [10, 20, 30] ++ [0, 0, 0, 128]) = some (.ok [10, 20, 30]) := by
  refine ⟨?_, ?_, by rfl⟩ <;>
  · intro mem F hbc fuel st h0 h1 h2 h3
    simp [decodeBlockLoop, h0, h1, h2, h3]

theorem claim9_highbit_sentinel_witness :
    decodeBlockLoop (fun i => if i = 3 then 128 else 0) 5 false 3 ⟨0, fun _ => 0, 0, []⟩ =
      some (.ok ⟨4, fun _ => 0, 0, []⟩) ∧
    decodeBlockLoop (fun _ => 0) 5 false 3 ⟨0, fun _ => 0, 0, []⟩ =
      some (.ok ⟨4, fun _ => 0, 0, []⟩) :=
  ⟨claim9_highbit_sentinel.1 _ 5 false 2 ⟨0, fun _ => 0, 0, []⟩ rfl rfl rfl rfl,
   claim9_highbit_sentinel.2.1 _ 5 false 2 ⟨0, fun _ => 0, 0, []⟩ rfl rfl rfl rfl⟩

/-- C3: per-block raw fallback.  If the serialized payload `c` of a block is at least
    as long as the block (or `maxChainLength = 0`), the emitted block is the 4-byte
    little-endian prefix with bit 31 set (value `blockSize + 0x80000000`) followed by
    the input block verbatim; otherwise the prefix carries `c.length` (< 2^31, bit 31
    clear) and the payload is `c`. -/
theorem claim3_raw_fallback (s : List Nat) (L F : Nat) (enc : EncState)
    (lastBlock nextBlock dataZero : Nat) (hsz : nextBlock - lastBlock ≤ 4194304)
    (c : List Nat)
    (hc : c = selectBestMatches s F (blockTable s L F enc lastBlock nextBlock dataZero).1
      (if L = 0 then 0 else nextBlock - lastBlock) lastBlock) :
    (nextBlock - lastBlock ≤ c.length ∨ L = 0 →
      (compressBlock s L F enc lastBlock nextBlock dataZero).1 =
        le4 (nextBlock - lastBlock + 2147483648) ++
          segBytes s lastBlock (nextBlock - lastBlock)) ∧
    (c.length < nextBlock - lastBlock ∧ L ≠ 0 →
      (compressBlock s L F enc lastBlock nextBlock dataZero).1 = le4 c.length ++ c ∧
        c.length < 2147483648) := by
  subst hc
  constructor
  · intro h
    have hnc : ¬((selectBestMatches s F (blockTable s L F enc lastBlock nextBlock
        dataZero).1 (if L = 0 then 0 else nextBlock - lastBlock) lastBlock).length <
        nextBlock - lastBlock ∧ L ≠ 0) := by
      rcases h with h | h
      · intro hx; omega
      · intro hx; exact hx.2 h
    simp only [compressBlock]
    rw [if_neg hnc, if_neg hnc, if_neg hnc]
  · intro h
    have h31 : (selectBestMatches s F (blockTable s L F enc lastBlock nextBlock
        dataZero).1 (if L = 0 then 0 else nextBlock - lastBlock) lastBlock).length <
        2147483648 := by omega
    refine ⟨?_, h31⟩
    simp only [compressBlock]
    rw [if_pos h, if_pos h, if_pos h, Nat.add_zero]

theorem claim3_raw_fallback_witness :
    (16 - 0 ≤ (selectBestMatches abcd4 70016 (blockTable abcd4 0 70016 encInit 0 16 0).1
        (if (0 : Nat) = 0 then 0 else 16 - 0) 0).length ∨ (0 : Nat) = 0) ∧
    (compressBlock abcd4 0 70016 encInit 0 16 0).1 =
      le4 (16 - 0 + 2147483648) ++ segBytes abcd4 0 (16 - 0) :=
  ⟨Or.inr rfl,
   (claim3_raw_fallback abcd4 0 70016 encInit 0 16 0 (by decide) _ rfl).1 (Or.inr rfl)⟩

/-- C6 counterexample: on "Hello World. Hello World!" at the default chain cap the
    encoder emits a single match, of length 7 (not 12): the 12-byte match the claim
    describes does not occur. -/
theorem claim6_counterexample :
    emittedMatches helloWorld 65535 = [(13, 7, 13)] ∧
    ∀ m ∈ emittedMatches helloWorld 65535, m.2.1 ≠ 12 := by decide

/-- C6 (amended): on the 25-byte "Hello World. Hello World!" the encoder emits a single
    compressed block whose only match starts at position 13 with offset 13 and length 7
    (capped because the last five stream bytes must stay literal), and the trailing "!"
    is inside the 5-byte literal tail "orld!". -/
theorem claim6_hello_world :
    lz4encode helloWorld 65535 =
      frameHeader ++ [22, 0, 0, 0] ++
        ([211] ++ segBytes helloWorld 0 13 ++ [13, 0] ++
         [80] ++ [111, 114, 108, 100, 33]) ++ [0, 0, 0, 0] ∧
    emittedMatches helloWorld 65535 = [(13, 7, 13)] ∧
    segBytes helloWorld 20 5 = [111, 114, 108, 100, 33] := by decide

/-- C5 counterexample: on the 16-byte input "ABCDABCDABCDABCD" the encoder emits a
    match starting at position 4 = 16 - 12, so it is not true that every emitted
    match's position `p` satisfies `p < streamLength - 12`. -/
theorem claim5_counterexample :
    emittedMatches abcd4 65535 = [(4, 7, 4)] ∧ abcd4.length = 16 ∧ ¬(4 < 16 - 12) := by
  decide

/-- C7 counterexample: greedy mode (`maxChainLength = 3`) on "ABCABC…" (24 bytes, one
    block): a 16-byte match is found at position 3, yet the match finder still runs at
    position 4 (recording a 15-byte match there, not skipping it), and the skipped
    position 5 retains length 0 — not 1. -/
theorem claim7_counterexample :
    (blockTable abcPeriodic 3 70024 encInit 0 24 0).1.lengths 3 = 16 ∧
    (blockTable abcPeriodic 3 70024 encInit 0 24 0).1.lengths 4 = 15 ∧
    (blockTable abcPeriodic 3 70024 encInit 0 24 0).1.lengths 5 = 0 ∧
    (blockTable abcPeriodic 3 70024 encInit 0 24 0).1.lengths 5 ≠ 1 := by decide

/-- C7 (amended): in greedy mode, after a match of length ℓ at position `i` (skip
    counter previously zero) the match finder still runs once at `i + 1` — on the
    periodic example it records a match there — and only then skips positions
    `i + 2 .. i + ℓ`, which retain length 0 (serialized as literals); moreover the
    chain rings are updated at every position that takes the hash-update path,
    independently of the skip state: the updated state is a function of the previous
    chains and the position only, and both rings are written at slot `p % 65536`. -/
theorem claim7_greedy_skip :
    ((blockTable abcPeriodic 3 70024 encInit 0 24 0).1.lengths 3 = 16 ∧
     (blockTable abcPeriodic 3 70024 encInit 0 24 0).1.lengths 4 = 15 ∧
     ∀ j ∈ [5, 6, 7, 8, 9, 10, 11, 12],
       (blockTable abcPeriodic 3 70024 encInit 0 24 0).1.lengths j = 0) ∧
    (∀ (s : List Nat) (L F lastBlock nextBlock dataZero p : Nat) (st : BlockSt),
       ¬(lastBlock < p ∧ byteAt s p = byteAt s (p - 1) ∧
          st.m.distances (p - 1 - lastBlock) = 1 ∧
          65299 < st.m.lengths (p - 1 - lastBlock)) →
       (mfStep s L F lastBlock nextBlock dataZero p st).enc =
         (chainUpdate s dataZero st.enc p).1) ∧
    (∀ (s : List Nat) (dataZero : Nat) (enc : EncState) (p : Nat), ∃ v w,
       (chainUpdate s dataZero enc p).1.prevHash = upd enc.prevHash (p % 65536) v ∧
       (chainUpdate s dataZero enc p).1.prevExact = upd enc.prevExact (p % 65536) w) := by
  refine ⟨by decide, ?_, ?_⟩
  · intro s L F lastBlock nextBlock dataZero p st h
    simp only [mfStep]
    rw [if_neg h]
    rcases hr : (chainUpdate s dataZero st.enc p).2 with _ | d
    · simp [hr]
    · simp only [hr]
      split_ifs <;> rfl
  · intro s dataZero enc p
    rcases henc : enc.lastHash (getHash32 (input4 s p)) with _ | lhm
    · exact ⟨0, 0, by simp [chainUpdate, henc], by simp [chainUpdate, henc]⟩
    · by_cases hfar : 65535 < p - lhm
      · exact ⟨0, 0, by simp [chainUpdate, henc, hfar], by simp [chainUpdate, henc, hfar]⟩
      · rcases hw : exactWalk s dataZero (upd enc.prevHash (p % 65536) (p - lhm))
          (input4 s p) (getHash32 (input4 s p)) 70000 lhm (p - lhm) with ⟨ok, dist⟩
        cases ok
        · exact ⟨p - lhm, 0, by simp [chainUpdate, henc, hfar, hw],
            by simp [chainUpdate, henc, hfar, hw]⟩
        · exact ⟨p - lhm, dist, by simp [chainUpdate, henc, hfar, hw],
            by simp [chainUpdate, henc, hfar, hw]⟩

/-! ## List helpers -/

theorem list_ext_getD (l1 l2 : List Nat) (hlen : l1.length = l2.length)
    (h : ∀ i, i < l1.length → l1.getD i 0 = l2.getD i 0) : l1 = l2 := by
  induction l1 generalizing l2 with
  | nil => cases l2 with
    | nil => rfl
    | cons b t => simp at hlen
  | cons a t ih =>
    cases l2 with
    | nil => simp at hlen
    | cons b t2 =>
      have h0 := h 0 (by simp)
      simp only [List.getD_cons_zero] at h0
      subst h0
      have : t = t2 := by
        refine ih t2 (by simpa using hlen) ?_
        intro i hi
        have := h (i + 1) (by simpa using Nat.succ_lt_succ hi)
        simpa using this
      rw [this]

theorem getD_take (s : List Nat) (p i : Nat) (h : i < p) :
    (s.take p).getD i 0 = s.getD i 0 := by
  by_cases hi : i < s.length
  · rw [List.getD_eq_getElem _ _ (by simp; omega), List.getD_eq_getElem _ _ hi]
    exact List.getElem_take s
  · rw [List.getD_eq_default _ _ (by simp; omega), List.getD_eq_default _ _ (by omega)]

theorem getD_drop (l : List Nat) (m i : Nat) : (l.drop m).getD i 0 = l.getD (m + i) 0 := by
  by_cases hm : m + i < l.length
  · rw [List.getD_eq_getElem _ _ (by simp; omega), List.getD_eq_getElem _ _ hm]
    exact List.getElem_drop l
  · rw [List.getD_eq_default _ _ (by simp; omega), List.getD_eq_default _ _ (by omega)]

theorem getD_concat_self (l : List Nat) (a : Nat) : (l ++ [a]).getD l.length 0 = a := by
  rw [List.getD_append_right _ _ _ _ (le_refl _)]
  simp

theorem take_succ_getD (s : List Nat) (p : Nat) (h : p < s.length) :
    s.take (p + 1) = s.take p ++ [s.getD p 0] := by
  refine list_ext_getD _ _ (by simp; omega) ?_
  intro i hi
  simp only [List.length_take] at hi
  by_cases hip : i < p
  · rw [getD_take _ _ _ (by omega), List.getD_append _ _ _ _ (by simp; omega),
      getD_take _ _ _ hip]
  · have hieq : i = p := by omega
    subst hieq
    rw [getD_take _ _ _ (by omega)]
    have hlt : (s.take i).length = i := by simp; omega
    rw [List.getD_append_right _ _ _ _ (by omega), hlt]
    simp

theorem segBytes_getD (s : List Nat) (a n j : Nat) (h : j < n) :
    (segBytes s a n).getD j 0 = byteAt s (a + j) := by
  rw [List.getD_eq_getElem _ _ (by simp [segBytes]; omega)]
  simp [segBytes]

theorem histList_length (h : Nat → Nat) (n : Nat) : (histList h n).length = n := by
  simp [histList]

theorem histList_getD (h : Nat → Nat) (n j : Nat) (hj : j < n) :
    (histList h n).getD j 0 = h j := by
  rw [List.getD_eq_getElem _ _ (by simp [histList]; omega)]
  simp [histList]

theorem take_append_seg (s : List Nat) (a b : Nat) (hab : a ≤ b) (hb : b ≤ s.length) :
    s.take a ++ segBytes s a (b - a) = s.take b := by
  refine list_ext_getD _ _ ?_ ?_
  · simp [segBytes]
    omega
  · intro i hi
    have hla : (s.take a).length = a := by simp; omega
    have hlen : (s.take a ++ segBytes s a (b - a)).length = b := by
      simp [segBytes]; omega
    rw [hlen] at hi
    by_cases hia : i < a
    · rw [List.getD_append _ _ _ _ (by omega), getD_take _ _ _ hia, getD_take _ _ _ hi]
    · rw [List.getD_append_right _ _ _ _ (by omega), hla,
        segBytes_getD _ _ _ _ (by omega), getD_take _ _ _ hi]
      have hidx : a + (i - a) = i := by omega
      rw [byteAt, hidx]

/-! ## Decoder ring-buffer simulation -/

theorem pushB_cur (st : DecState) (b : Nat) : (pushB st b).cur = st.cur := by
  unfold pushB
  split <;> rfl

theorem pushB_decInv (D : List Nat) (st : DecState) (b : Nat) (h : decInv D st) :
    decInv (D ++ [b]) (pushB st b) := by
  obtain ⟨hout, hpos, hring⟩ := h
  have hlen1 : (D ++ [b]).length = D.length + 1 := by simp
  unfold pushB
  by_cases hwrap : st.pos + 1 = 65536
  · rw [if_pos hwrap]
    have hp : D.length % 65536 = 65535 := by omega
    have hDlen : 65535 ≤ D.length := hp ▸ Nat.mod_le D.length 65536
    have hmod1 : (D.length + 1) % 65536 = 0 := by omega
    have hflushed : histList (upd st.hist st.pos b) 65536 =
        (D ++ [b]).drop (D.length + 1 - 65536) := by
      refine list_ext_getD _ _ ?_ ?_
      · rw [histList_length]; simp; omega
      · intro i hi
        rw [histList_length] at hi
        rw [histList_getD _ _ _ hi, getD_drop]
        by_cases hi' : i = 65535
        · subst hi'
          have heq1 : D.length + 1 - 65536 + 65535 = D.length := by omega
          rw [heq1, getD_concat_self, hpos, hp, upd_self]
        · have hne : i ≠ st.pos := by omega
          rw [upd_ne _ _ _ _ hne]
          have := hring (65535 - i) (by omega) (by omega) (by omega)
          have hslot : (D.length - (65535 - i)) % 65536 = i := by omega
          rw [hslot] at this
          rw [List.getD_append _ _ _ _ (by omega), this]
          congr 1
          omega
    refine ⟨?_, ?_, ?_⟩
    · show st.out ++ histList (upd st.hist st.pos b) 65536 =
        (D ++ [b]).take ((D ++ [b]).length - (D ++ [b]).length % 65536)
      rw [hout, hflushed, hlen1, hmod1, Nat.sub_zero]
      have hto : D.take (D.length - D.length % 65536) =
          (D ++ [b]).take (D.length + 1 - 65536) := by
        refine list_ext_getD _ _ (by simp; omega) ?_
        intro i hi
        simp only [List.length_take] at hi
        rw [getD_take _ _ _ (by omega), getD_take _ _ _ (by omega),
          List.getD_append _ _ _ _ (by omega)]
      rw [hto, List.take_append_drop, ← hlen1, List.take_length]
    · show (0 : Nat) = (D ++ [b]).length % 65536
      rw [hlen1]
      omega
    · intro k hk1 hk2 hk3
      simp only [hlen1] at hk2 ⊢
      show upd st.hist st.pos b ((D.length + 1 - k) % 65536) =
        (D ++ [b]).getD (D.length + 1 - k) 0
      by_cases hk : k = 1
      · subst hk
        have hs : (D.length + 1 - 1) % 65536 = st.pos := by omega
        have hix : D.length + 1 - 1 = D.length := by omega
        rw [hs, hix, upd_self, getD_concat_self]
      · have hne : (D.length + 1 - k) % 65536 ≠ st.pos := by omega
        rw [upd_ne _ _ _ _ hne]
        have hr := hring (k - 1) (by omega) (by omega) (by omega)
        have heq1 : D.length - (k - 1) = D.length + 1 - k := by omega
        rw [heq1] at hr
        rw [List.getD_append _ _ _ _ (by omega), hr]
  · rw [if_neg hwrap]
    have hposlt : st.pos < 65535 := by
      have : st.pos < 65536 := by rw [hpos]; exact Nat.mod_lt _ (by omega)
      omega
    refine ⟨?_, ?_, ?_⟩
    · show st.out = (D ++ [b]).take ((D ++ [b]).length - (D ++ [b]).length % 65536)
      rw [hout, hlen1]
      have hmod : (D.length + 1) % 65536 = st.pos + 1 := by omega
      rw [hmod]
      refine list_ext_getD _ _ (by simp; omega) ?_
      intro i hi
      simp only [List.length_take] at hi
      rw [getD_take _ _ _ (by omega), getD_take _ _ _ (by omega),
        List.getD_append _ _ _ _ (by omega)]
    · show st.pos + 1 = (D ++ [b]).length % 65536
      rw [hlen1]
      omega
    · intro k hk1 hk2 hk3
      simp only [hlen1] at hk2 ⊢
      show upd st.hist st.pos b ((D.length + 1 - k) % 65536) =
        (D ++ [b]).getD (D.length + 1 - k) 0
      by_cases hk : k = 1
      · subst hk
        have hs : (D.length + 1 - 1) % 65536 = st.pos := by omega
        have hix : D.length + 1 - 1 = D.length := by omega
        rw [hs, hix, upd_self, getD_concat_self]
      · have hne : (D.length + 1 - k) % 65536 ≠ st.pos := by omega
        rw [upd_ne _ _ _ _ hne]
        have hr := hring (k - 1) (by omega) (by omega) (by omega)
        have heq1 : D.length - (k - 1) = D.length + 1 - k := by omega
        rw [heq1] at hr
        rw [List.getD_append _ _ _ _ (by omega), hr]

/-! ## Copy-loop simulation lemmas -/

theorem memSeg_succ (mem : Nat → Nat) (c n : Nat) :
    memSeg mem c (n + 1) = mem c :: memSeg mem (c + 1) n := by
  simp only [memSeg, List.range_succ_eq_map, List.map_cons, List.map_map, Nat.add_zero]
  have hfun : ((fun k => mem (c + k)) ∘ Nat.succ) = fun k => mem (c + 1 + k) := by
    funext k
    simp only [Function.comp_apply, Nat.succ_eq_add_one]
    congr 1
    omega
  rw [hfun]

theorem memSeg_length (mem : Nat → Nat) (c n : Nat) : (memSeg mem c n).length = n := by
  simp [memSeg]

theorem memSeg_getD (mem : Nat → Nat) (c n j : Nat) (h : j < n) :
    (memSeg mem c n).getD j 0 = mem (c + j) := by
  rw [List.getD_eq_getElem _ _ (by simp [memSeg]; omega)]
  simp [memSeg]

theorem copyLitsSlow_decInv (mem : Nat → Nat) (n : Nat) :
    ∀ (D : List Nat) (st : DecState), decInv D st →
      decInv (D ++ memSeg mem st.cur n) (copyLitsSlow mem n st) ∧
      (copyLitsSlow mem n st).cur = st.cur + n := by
  induction n with
  | zero =>
    intro D st h
    refine ⟨?_, rfl⟩
    show decInv (D ++ []) st
    simpa using h
  | succ n ih =>
    intro D st h
    have h1 : decInv (D ++ [mem st.cur]) (pushB st (mem st.cur)) :=
      pushB_decInv D st (mem st.cur) h
    have h2 : decInv (D ++ [mem st.cur])
        (⟨st.cur + 1, (pushB st (mem st.cur)).hist, (pushB st (mem st.cur)).pos,
          (pushB st (mem st.cur)).out⟩ : DecState) := h1
    have := ih (D ++ [mem st.cur]) _ h2
    refine ⟨?_, ?_⟩
    · show decInv (D ++ memSeg mem st.cur (n + 1)) (copyLitsSlow mem n
        ⟨st.cur + 1, (pushB st (mem st.cur)).hist, (pushB st (mem st.cur)).pos,
          (pushB st (mem st.cur)).out⟩)
      rw [memSeg_succ, List.append_cons]
      exact this.1
    · show (copyLitsSlow mem n ⟨st.cur + 1, (pushB st (mem st.cur)).hist,
        (pushB st (mem st.cur)).pos, (pushB st (mem st.cur)).out⟩).cur = st.cur + (n + 1)
      rw [this.2]
      show st.cur + 1 + n = st.cur + (n + 1)
      omega

theorem copyLitsFast_eq_slow (mem : Nat → Nat) (n : Nat) :
    ∀ st : DecState, st.pos + n < 65536 →
      copyLitsFast mem n st = copyLitsSlow mem n st := by
  induction n with
  | zero => intro st _; rfl
  | succ n ih =>
    intro st hlt
    have hw : ¬(st.pos + 1 = 65536) := by omega
    have hB : pushB st (mem st.cur) =
        ⟨st.cur, upd st.hist st.pos (mem st.cur), st.pos + 1, st.out⟩ := by
      simp [pushB, hw]
    show copyLitsFast mem n ⟨st.cur + 1, upd st.hist st.pos (mem st.cur), st.pos + 1,
        st.out⟩ =
      copyLitsSlow mem n ⟨st.cur + 1, (pushB st (mem st.cur)).hist,
        (pushB st (mem st.cur)).pos, (pushB st (mem st.cur)).out⟩
    rw [hB]
    exact ih _ (by show st.pos + 1 + n < 65536; omega)

theorem ringCopy_decInv (s : List Nat) (delta : Nat) (hd1 : 1 ≤ delta)
    (hd2 : delta ≤ 65535) (ml : Nat) :
    ∀ (p : Nat) (st : DecState), decInv (s.take p) st → delta ≤ p → p + ml ≤ s.length →
      (∀ j, j < ml → byteAt s (p + j) = byteAt s (p - delta + j)) →
      decInv (s.take (p + ml)) (ringCopy ml ((st.pos + 65536 - delta) % 65536) st) ∧
      (ringCopy ml ((st.pos + 65536 - delta) % 65536) st).cur = st.cur := by
  induction ml with
  | zero =>
    intro p st h hdp hp heq
    exact ⟨by simpa using h, rfl⟩
  | succ n ih =>
    intro p st h hdp hp heq
    have htl : (s.take p).length = p := by simp; omega
    have hpos : st.pos = p % 65536 := by
      have := h.2.1
      rw [htl] at this
      exact this
    have hring := h.2.2
    rw [htl] at hring
    have hrefv : (st.pos + 65536 - delta) % 65536 = (p - delta) % 65536 := by
      rw [hpos]; omega
    have hbyte : st.hist ((p - delta) % 65536) = byteAt s (p - delta) := by
      have hr := hring delta hd1 (by omega) (by omega)
      rw [hr, getD_take _ _ _ (by omega)]
      rfl
    have hbyte2 : st.hist ((p - delta) % 65536) = byteAt s p := by
      rw [hbyte]
      have := heq 0 (by omega)
      simpa using this.symm
    have hstep : decInv (s.take (p + 1)) (pushB st (byteAt s p)) := by
      have := pushB_decInv (s.take p) st (byteAt s p) h
      rwa [show s.take p ++ [byteAt s p] = s.take (p + 1) from
        (take_succ_getD s p (by omega)).symm] at this
    have hpos1 : (pushB st (byteAt s p)).pos = (p + 1) % 65536 := by
      have := hstep.2.1
      rwa [show (s.take (p + 1)).length = p + 1 from by simp; omega] at this
    have hnext : ((p - delta) % 65536 + 1) % 65536 =
        ((pushB st (byteAt s p)).pos + 65536 - delta) % 65536 := by
      rw [hpos1]; omega
    have heq2 : ∀ j, j < n → byteAt s (p + 1 + j) = byteAt s (p + 1 - delta + j) := by
      intro j hj
      have := heq (j + 1) (by omega)
      rw [show p + (j + 1) = p + 1 + j from by omega,
        show p - delta + (j + 1) = p + 1 - delta + j from by omega] at this
      exact this
    have ihres := ih (p + 1) (pushB st (byteAt s p)) hstep (by omega) (by omega) heq2
    constructor
    · show decInv (s.take (p + (n + 1)))
        (ringCopy n (((st.pos + 65536 - delta) % 65536 + 1) % 65536)
          (pushB st (st.hist ((st.pos + 65536 - delta) % 65536))))
      rw [hrefv, hbyte2, hnext, show p + (n + 1) = p + 1 + n from by omega]
      exact ihres.1
    · show (ringCopy n (((st.pos + 65536 - delta) % 65536 + 1) % 65536)
          (pushB st (st.hist ((st.pos + 65536 - delta) % 65536)))).cur = st.cur
      rw [hrefv, hbyte2, hnext, ihres.2, pushB_cur]

theorem overlapCopy_eq_ringCopy (ml : Nat) :
    ∀ (ref : Nat) (st : DecState), st.pos + ml < 65536 → ref + ml < 65536 →
      overlapCopy ml ref st = ringCopy ml ref st := by
  induction ml with
  | zero => intro ref st _ _; rfl
  | succ n ih =>
    intro ref st h1 h2
    have hw : ¬(st.pos + 1 = 65536) := by omega
    have hB : pushB st (st.hist ref) =
        ⟨st.cur, upd st.hist st.pos (st.hist ref), st.pos + 1, st.out⟩ := by
      simp [pushB, hw]
    show overlapCopy n (ref + 1) ⟨st.cur, upd st.hist st.pos (st.hist ref), st.pos + 1,
        st.out⟩ = ringCopy n ((ref + 1) % 65536) (pushB st (st.hist ref))
    rw [hB, Nat.mod_eq_of_lt (show ref + 1 < 65536 from by omega)]
    exact ih (ref + 1) _ (by show st.pos + 1 + n < 65536; omega) (by omega)

theorem memcpyHist_eq_ringCopy (ml : Nat) :
    ∀ (ref : Nat) (st : DecState), st.pos + ml < 65536 → ref + ml < 65536 →
      (ref + ml ≤ st.pos ∨ st.pos + ml ≤ ref) →
      memcpyHist st ref ml = ringCopy ml ref st := by
  induction ml with
  | zero =>
    intro ref st _ _ _
    show memcpyHist st ref 0 = st
    unfold memcpyHist
    have hh : (fun j => if st.pos ≤ j ∧ j < st.pos + 0 then st.hist (ref + (j - st.pos))
        else st.hist j) = st.hist := by
      funext j
      rw [if_neg (by omega)]
    cases st with
    | mk cur hist pos out =>
      simp only [] at hh ⊢
      rw [hh, Nat.add_zero]
  | succ n ih =>
    intro ref st h1 h2 hno
    have hw : ¬(st.pos + 1 = 65536) := by omega
    have hB : pushB st (st.hist ref) =
        ⟨st.cur, upd st.hist st.pos (st.hist ref), st.pos + 1, st.out⟩ := by
      simp [pushB, hw]
    show memcpyHist st ref (n + 1) = ringCopy n ((ref + 1) % 65536) (pushB st (st.hist ref))
    rw [hB, Nat.mod_eq_of_lt (show ref + 1 < 65536 from by omega)]
    have hihpre : (⟨st.cur, upd st.hist st.pos (st.hist ref), st.pos + 1, st.out⟩ :
        DecState).pos + n < 65536 := by
      show st.pos + 1 + n < 65536; omega
    rw [← ih (ref + 1) ⟨st.cur, upd st.hist st.pos (st.hist ref), st.pos + 1, st.out⟩
      hihpre (by omega) (by rcases hno with hno | hno
                            · exact Or.inl (by show ref + 1 + n ≤ st.pos + 1; omega)
                            · exact Or.inr (by show st.pos + 1 + n ≤ ref + 1; omega))]
    unfold memcpyHist
    simp only []
    congr 1
    · funext j
      by_cases hj1 : j = st.pos
      · subst hj1
        rw [if_pos (by omega), if_neg (by show _ ∧ _ → False; intro hx; omega)]
        rw [upd_self]
        congr 1
        omega
      · by_cases hj2 : st.pos ≤ j ∧ j < st.pos + (n + 1)
        · rw [if_pos hj2, if_pos (by show st.pos + 1 ≤ j ∧ j < st.pos + 1 + n; omega)]
          rw [upd_ne _ _ _ _ (by rcases hno with hno | hno <;> omega)]
          congr 1
          omega
        · have hn2 : ¬(st.pos + 1 ≤ j ∧ j < st.pos + 1 + n) := by omega
          rw [if_neg hj2, if_neg hn2]
          rw [upd_ne _ _ _ _ hj1]
    · omega

theorem memAt_append (mem : Nat → Nat) (c : Nat) (xs ys : List Nat) :
    memAt mem c (xs ++ ys) ↔ memAt mem c xs ∧ memAt mem (c + xs.length) ys := by
  constructor
  · intro h
    constructor
    · intro j hj
      have := h j (by simp; omega)
      rwa [List.getD_append _ _ _ _ hj] at this
    · intro j hj
      have := h (xs.length + j) (by simp; omega)
      rw [List.getD_append_right _ _ _ _ (by omega)] at this
      rw [show c + (xs.length + j) = c + xs.length + j from by omega] at this
      rw [this]
      congr 1
      omega
  · intro hpair j hj
    simp only [List.length_append] at hj
    by_cases hx : j < xs.length
    · rw [List.getD_append _ _ _ _ hx]
      exact hpair.1 j hx
    · rw [List.getD_append_right _ _ _ _ (by omega)]
      have := hpair.2 (j - xs.length) (by omega)
      rwa [show c + xs.length + (j - xs.length) = c + j from by omega] at this

theorem memAt_cons (mem : Nat → Nat) (c b : Nat) (ys : List Nat) :
    memAt mem c (b :: ys) ↔ mem c = b ∧ memAt mem (c + 1) ys := by
  rw [show b :: ys = [b] ++ ys from rfl, memAt_append]
  constructor
  · intro hpair
    refine ⟨?_, hpair.2⟩
    have := hpair.1 0 (by simp)
    simpa using this
  · intro hpair
    refine ⟨?_, hpair.2⟩
    intro j hj
    simp only [List.length_singleton] at hj
    have hj0 : j = 0 := by omega
    subst hj0
    simpa using hpair.1

theorem memSeg_of_memAt (mem : Nat → Nat) (c : Nat) (bytes : List Nat)
    (h : memAt mem c bytes) : memSeg mem c bytes.length = bytes := by
  refine list_ext_getD _ _ (by simp [memSeg]) ?_
  intro i hi
  rw [memSeg_length] at hi
  rw [memSeg_getD _ _ _ _ hi, h i hi]

theorem lenExt_eq (fuel : Nat) : ∀ x : Nat, x ≤ 255 * fuel →
    lenExt fuel x = List.replicate (x / 255) 255 ++ [x % 255] := by
  induction fuel with
  | zero =>
    intro x hx
    have hx0 : x = 0 := by omega
    subst hx0
    rfl
  | succ fuel ih =>
    intro x hx
    by_cases hc : 255 ≤ x
    · show (if 255 ≤ x then 255 :: lenExt fuel (x - 255) else [x]) = _
      rw [if_pos hc, ih (x - 255) (by omega)]
      have hdiv : x / 255 = (x - 255) / 255 + 1 := by omega
      have hmod : x % 255 = (x - 255) % 255 := by omega
      rw [hdiv, hmod, List.replicate_succ]
      rfl
    · show (if 255 ≤ x then 255 :: lenExt fuel (x - 255) else [x]) = _
      rw [if_neg hc, Nat.div_eq_of_lt (by omega), Nat.mod_eq_of_lt (by omega)]
      rfl

theorem lenExt_length (fuel x : Nat) (h : x ≤ 255 * fuel) :
    (lenExt fuel x).length = x / 255 + 1 := by
  rw [lenExt_eq fuel x h]
  simp

theorem readExt_spec : ∀ (n : Nat) (mem : Nat → Nat) (cur acc Fd : Nat), n < Fd →
    (∀ k, k < n → mem (cur + k) = 255) → mem (cur + n) < 255 →
    readExt mem Fd cur acc = some (cur + n + 1, acc + 255 * n + mem (cur + n)) := by
  intro n
  induction n with
  | zero =>
    intro mem cur acc Fd hFd h255 hlast
    obtain ⟨F, rfl⟩ : ∃ F, Fd = F + 1 := ⟨Fd - 1, by omega⟩
    rw [Nat.add_zero] at hlast
    show (if mem cur = 255 then readExt mem F (cur + 1) (acc + mem cur)
          else some (cur + 1, acc + mem cur)) = _
    rw [if_neg (by omega)]
    rfl
  | succ n ih =>
    intro mem cur acc Fd hFd h255 hlast
    obtain ⟨F, rfl⟩ : ∃ F, Fd = F + 1 := ⟨Fd - 1, by omega⟩
    have h0 : mem cur = 255 := by
      have := h255 0 (by omega)
      simpa using this
    show (if mem cur = 255 then readExt mem F (cur + 1) (acc + mem cur)
          else some (cur + 1, acc + mem cur)) = _
    rw [if_pos h0, h0]
    have hrec := ih mem (cur + 1) (acc + 255) F (by omega)
      (fun k hk => by
        rw [show cur + 1 + k = cur + (k + 1) from by omega]
        exact h255 (k + 1) (by omega))
      (by rw [show cur + 1 + n = cur + (n + 1) from by omega]; exact hlast)
    rw [hrec, show cur + 1 + n = cur + (n + 1) from by omega,
        show acc + 255 + 255 * n = acc + 255 * (n + 1) from by omega]

theorem readExt_lenExt (mem : Nat → Nat) (cur acc x Fe Fd : Nat)
    (hFe : x ≤ 255 * Fe) (hFd : x / 255 < Fd)
    (hmem : memAt mem cur (lenExt Fe x)) :
    readExt mem Fd cur acc = some (cur + (x / 255 + 1), acc + x) := by
  rw [lenExt_eq Fe x hFe] at hmem
  have hrep : ∀ k, k < x / 255 → mem (cur + k) = 255 := by
    intro k hk
    have := hmem k (by simp; omega)
    rw [List.getD_append _ _ _ _ (by simp; omega)] at this
    rw [this, List.getD_eq_getElem _ _ (by simp; omega)]
    simp
  have hlast : mem (cur + x / 255) = x % 255 := by
    have := hmem (x / 255) (by simp)
    rw [List.getD_append_right _ _ _ _ (by simp)] at this
    simpa using this
  rw [readExt_spec (x / 255) mem cur acc Fd hFd hrep
    (by rw [hlast]; exact Nat.mod_lt _ (by omega))]
  rw [hlast, show cur + x / 255 + 1 = cur + (x / 255 + 1) from by omega,
      show acc + 255 * (x / 255) + x % 255 = acc + x from by omega]

theorem decInv_flush (D : List Nat) (st : DecState) (h : decInv D st) :
    st.out ++ histList st.hist st.pos = D := by
  obtain ⟨hout, hpos, hring⟩ := h
  have houtlen : st.out.length = D.length - D.length % 65536 := by
    rw [hout]
    simp
  refine list_ext_getD _ _ ?_ ?_
  · rw [List.length_append, houtlen, histList_length, hpos]
    omega
  · intro i hi
    rw [List.length_append, houtlen, histList_length, hpos] at hi
    by_cases hq : i < D.length - D.length % 65536
    · rw [List.getD_append _ _ _ _ (by rw [houtlen]; omega)]
      rw [hout, getD_take _ _ _ hq]
    · rw [List.getD_append_right _ _ _ _ (by rw [houtlen]; omega)]
      rw [houtlen, hpos, histList_getD _ _ _ (by omega)]
      have hk := hring (D.length - i) (by omega) (by omega) (by omega)
      rw [show D.length - (D.length - i) = i from by omega] at hk
      rw [show i - (D.length - D.length % 65536) = i % 65536 from by omega]
      exact hk

theorem decodeMatchCopy_eq_ringCopy (st : DecState) (delta ml : Nat)
    (hpos : st.pos < 65536) (hd1 : 1 ≤ delta) (hd2 : delta ≤ 65535) :
    decodeMatchCopy st delta ml = ringCopy ml ((st.pos + 65536 - delta) % 65536) st := by
  have href : (if delta ≤ st.pos then st.pos - delta else 65536 + st.pos - delta) =
      (st.pos + 65536 - delta) % 65536 := by
    split_ifs with hc
    · omega
    · omega
  show (if st.pos + ml < 65536 ∧
      (if delta ≤ st.pos then st.pos - delta else 65536 + st.pos - delta) + ml < 65536 then
      if (if delta ≤ st.pos then st.pos - delta else 65536 + st.pos - delta) + ml ≤ st.pos ∨
          st.pos + ml ≤ (if delta ≤ st.pos then st.pos - delta else 65536 + st.pos - delta)
        then memcpyHist st (if delta ≤ st.pos then st.pos - delta
          else 65536 + st.pos - delta) ml
        else overlapCopy ml (if delta ≤ st.pos then st.pos - delta
          else 65536 + st.pos - delta) st
      else ringCopy ml (if delta ≤ st.pos then st.pos - delta
        else 65536 + st.pos - delta) st) =
    ringCopy ml ((st.pos + 65536 - delta) % 65536) st
  rw [href]
  split_ifs with hc1 hc2
  · exact memcpyHist_eq_ringCopy ml _ st hc1.1 hc1.2 hc2
  · exact overlapCopy_eq_ringCopy ml _ st hc1.1 hc1.2
  · rfl

theorem copyLitsFast_cur (mem : Nat → Nat) (n : Nat) :
    ∀ st : DecState, (copyLitsFast mem n st).cur = st.cur + n := by
  induction n with
  | zero => intro st; rfl
  | succ n ih =>
    intro st
    show (copyLitsFast mem n
      ⟨st.cur + 1, upd st.hist st.pos (mem st.cur), st.pos + 1, st.out⟩).cur =
      st.cur + (n + 1)
    rw [ih]
    show st.cur + 1 + n = st.cur + (n + 1)
    omega

theorem copyLitsSlow_cur (mem : Nat → Nat) (n : Nat) :
    ∀ st : DecState, (copyLitsSlow mem n st).cur = st.cur + n := by
  induction n with
  | zero => intro st; rfl
  | succ n ih =>
    intro st
    show (copyLitsSlow mem n
      ⟨st.cur + 1, (pushB st (mem st.cur)).hist, (pushB st (mem st.cur)).pos,
        (pushB st (mem st.cur)).out⟩).cur = st.cur + (n + 1)
    rw [ih]
    show st.cur + 1 + n = st.cur + (n + 1)
    omega

theorem litCopy_step (s : List Nat) (mem : Nat → Nat) (p numLit cur pos : Nat)
    (hist : Nat → Nat) (out : List Nat)
    (hInv : decInv (s.take (p - numLit)) ⟨cur, hist, pos, out⟩)
    (hnp : numLit ≤ p) (hps : p ≤ s.length)
    (hmem : memAt mem cur (segBytes s (p - numLit) numLit)) :
    decInv (s.take p)
      (if pos + numLit < 65536 then copyLitsFast mem numLit ⟨cur, hist, pos, out⟩
       else copyLitsSlow mem numLit ⟨cur, hist, pos, out⟩) ∧
    (if pos + numLit < 65536 then copyLitsFast mem numLit ⟨cur, hist, pos, out⟩
     else copyLitsSlow mem numLit ⟨cur, hist, pos, out⟩).cur = cur + numLit := by
  have hms : memSeg mem cur numLit = segBytes s (p - numLit) numLit := by
    have h2 := memSeg_of_memAt _ _ _ hmem
    rwa [segBytes_length] at h2
  have htas : s.take (p - numLit) ++ segBytes s (p - numLit) numLit = s.take p := by
    have h3 := take_append_seg s (p - numLit) p (by omega) hps
    rwa [show p - (p - numLit) = numLit from by omega] at h3
  constructor
  · split_ifs with hc
    · rw [copyLitsFast_eq_slow mem numLit _ hc]
      have h4 := (copyLitsSlow_decInv mem numLit (s.take (p - numLit))
        ⟨cur, hist, pos, out⟩ hInv).1
      rwa [show (⟨cur, hist, pos, out⟩ : DecState).cur = cur from rfl, hms, htas] at h4
    · have h4 := (copyLitsSlow_decInv mem numLit (s.take (p - numLit))
        ⟨cur, hist, pos, out⟩ hInv).1
      rwa [show (⟨cur, hist, pos, out⟩ : DecState).cur = cur from rfl, hms, htas] at h4
  · split_ifs with hc
    · rw [copyLitsFast_cur]
    · rw [copyLitsSlow_cur]

theorem litHead_spec (mem : Nat → Nat) (c numLit tokenLow Fe Fd : Nat)
    (htl : tokenLow < 16) (hFe : numLit ≤ 255 * Fe) (hFd : numLit / 255 < Fd)
    (hmem : memAt mem c (if numLit < 15 then [16 * numLit + tokenLow]
        else (240 + tokenLow) :: lenExt Fe (numLit - 15))) :
    mem c % 16 = tokenLow ∧
    (if mem c / 16 = 15 then readExt mem Fd (c + 1) (mem c / 16)
     else some (c + 1, mem c / 16)) =
    some (c + (if numLit < 15 then [16 * numLit + tokenLow]
        else (240 + tokenLow) :: lenExt Fe (numLit - 15)).length, numLit) := by
  by_cases hn : numLit < 15
  · rw [if_pos hn] at hmem
    have htok : mem c = 16 * numLit + tokenLow := by
      have := hmem 0 (by simp)
      simpa using this
    have hdiv : mem c / 16 = numLit := by rw [htok]; omega
    have hmod : mem c % 16 = tokenLow := by rw [htok]; omega
    refine ⟨hmod, ?_⟩
    rw [hdiv, if_neg (by omega), if_pos hn]
    rfl
  · rw [if_neg hn, memAt_cons] at hmem
    have htok : mem c = 240 + tokenLow := hmem.1
    have hdiv : mem c / 16 = 15 := by rw [htok]; omega
    have hmod : mem c % 16 = tokenLow := by rw [htok]; omega
    refine ⟨hmod, ?_⟩
    rw [hdiv, if_pos rfl]
    rw [readExt_lenExt mem (c + 1) 15 (numLit - 15) Fe Fd (by omega)
      (Nat.lt_of_le_of_lt (Nat.div_le_div_right (by omega)) hFd) hmem.2]
    rw [if_neg hn, List.length_cons, lenExt_length Fe (numLit - 15) (by omega)]
    rw [show c + 1 + ((numLit - 15) / 255 + 1) = c + ((numLit - 15) / 255 + 1 + 1)
          from by omega,
        show 15 + (numLit - 15) = numLit from by omega]

theorem matchTail_spec (mem : Nat → Nat) (c2 ml Fe Fd : Nat)
    (hFe : ml ≤ 255 * Fe) (hFd : ml / 255 < Fd)
    (hmem : memAt mem c2 (if 15 ≤ ml then lenExt Fe (ml - 15) else [])) :
    (if (if ml < 15 then ml else 15) = 15 then
        readExt mem Fd c2 (4 + (if ml < 15 then ml else 15))
      else some (c2, 4 + (if ml < 15 then ml else 15))) =
    some (c2 + (if 15 ≤ ml then lenExt Fe (ml - 15) else []).length, 4 + ml) := by
  by_cases hm : ml < 15
  · rw [if_pos hm, if_neg (by omega), if_neg (by omega)]
    rfl
  · rw [if_neg hm]
    rw [if_pos rfl]
    rw [if_pos (show 15 ≤ ml from by omega)] at hmem ⊢
    rw [readExt_lenExt mem c2 (4 + 15) (ml - 15) Fe Fd (by omega)
      (Nat.lt_of_le_of_lt (Nat.div_le_div_right (by omega)) hFd) hmem]
    rw [lenExt_length Fe (ml - 15) (by omega),
        show 4 + 15 + (ml - 15) = 4 + ml from by omega]

theorem seqBytes_true_decomp (s : List Nat) (Fe base litFrom numLit : Nat)
    (h : 0 < numLit) :
    seqBytes s Fe base litFrom numLit true 0 0 =
    (if numLit < 15 then [16 * numLit + 0] else (240 + 0) :: lenExt Fe (numLit - 15)) ++
      segBytes s (base + litFrom) numLit := by
  show (if (true = true) ∧ 0 < numLit then
      (if numLit < 15 then [16 * numLit + 0] else (240 + 0) :: lenExt Fe (numLit - 15)) ++
        (List.range numLit).map (fun k => byteAt s (base + litFrom + k))
    else ((if numLit < 15 then [16 * numLit + 0]
          else (240 + 0) :: lenExt Fe (numLit - 15)) ++
        (List.range numLit).map (fun k => byteAt s (base + litFrom + k))) ++
      [0 % 256, 0 / 256] ++ (if 15 ≤ 0 then lenExt Fe (0 - 15) else [])) = _
  rw [if_pos ⟨rfl, h⟩]
  rfl

theorem seqBytes_false_decomp (s : List Nat)
    (Fe base litFrom numLit length distance : Nat) :
    seqBytes s Fe base litFrom numLit false length distance =
    (if numLit < 15
       then [16 * numLit + (if length - 4 < 15 then length - 4 else 15)]
       else (240 + (if length - 4 < 15 then length - 4 else 15)) ::
         lenExt Fe (numLit - 15)) ++
      (segBytes s (base + litFrom) numLit ++
        (distance % 256 :: distance / 256 ::
          (if 15 ≤ length - 4 then lenExt Fe (length - 4 - 15) else []))) := by
  show (if (false = true) ∧ 0 < numLit then
      (if numLit < 15
         then [16 * numLit + (if length - 4 < 15 then length - 4 else 15)]
         else (240 + (if length - 4 < 15 then length - 4 else 15)) ::
           lenExt Fe (numLit - 15)) ++
        (List.range numLit).map (fun k => byteAt s (base + litFrom + k))
    else ((if numLit < 15
         then [16 * numLit + (if length - 4 < 15 then length - 4 else 15)]
         else (240 + (if length - 4 < 15 then length - 4 else 15)) ::
           lenExt Fe (numLit - 15)) ++
        (List.range numLit).map (fun k => byteAt s (base + litFrom + k))) ++
      [distance % 256, distance / 256] ++
      (if 15 ≤ length - 4 then lenExt Fe (length - 4 - 15) else [])) = _
  rw [if_neg (by simp)]
  rw [List.append_assoc, List.append_assoc]
  rfl

theorem decodeSeqLoop_step_final (mem : Nat → Nat) (Fd blockSize d blockOffset : Nat)
    (st : DecState) (numLit hl : Nat) (h1l : 1 ≤ hl)
    (hblt : blockOffset < blockSize)
    (hext1 : (if mem st.cur / 16 = 15 then readExt mem Fd (st.cur + 1) (mem st.cur / 16)
              else some (st.cur + 1, mem st.cur / 16)) = some (st.cur + hl, numLit))
    (hbo2 : blockOffset + hl + numLit = blockSize) :
    decodeSeqLoop mem Fd blockSize (d + 1) blockOffset st =
    some (.ok (if st.pos + numLit < 65536
      then copyLitsFast mem numLit ⟨st.cur + hl, st.hist, st.pos, st.out⟩
      else copyLitsSlow mem numLit ⟨st.cur + hl, st.hist, st.pos, st.out⟩)) := by
  simp only [decodeSeqLoop]
  rw [if_pos hblt, hext1]
  simp only []
  rw [if_pos (show blockOffset + 1 + (st.cur + hl - (st.cur + 1)) + numLit = blockSize
    from by omega)]

theorem decodeSeqLoop_step_match (mem : Nat → Nat) (Fd blockSize d blockOffset : Nat)
    (st : DecState) (numLit hl delta ml el : Nat) (h1l : 1 ≤ hl)
    (hblt : blockOffset < blockSize)
    (hext1 : (if mem st.cur / 16 = 15 then readExt mem Fd (st.cur + 1) (mem st.cur / 16)
              else some (st.cur + 1, mem st.cur / 16)) = some (st.cur + hl, numLit))
    (hbo2 : blockOffset + hl + numLit ≠ blockSize)
    (hdlo : mem (st.cur + hl + numLit) = delta % 256)
    (hdhi : mem (st.cur + hl + numLit + 1) = delta / 256)
    (hdpos : delta ≠ 0)
    (hext2 : (if mem st.cur % 16 = 15
              then readExt mem Fd (st.cur + hl + numLit + 2) (4 + mem st.cur % 16)
              else some (st.cur + hl + numLit + 2, 4 + mem st.cur % 16)) =
             some (st.cur + hl + numLit + 2 + el, ml)) :
    decodeSeqLoop mem Fd blockSize (d + 1) blockOffset st =
    decodeSeqLoop mem Fd blockSize d (blockOffset + hl + numLit + 2 + el)
      (decodeMatchCopy
        ⟨st.cur + hl + numLit + 2 + el,
         (if st.pos + numLit < 65536
            then copyLitsFast mem numLit ⟨st.cur + hl, st.hist, st.pos, st.out⟩
            else copyLitsSlow mem numLit ⟨st.cur + hl, st.hist, st.pos, st.out⟩).hist,
         (if st.pos + numLit < 65536
            then copyLitsFast mem numLit ⟨st.cur + hl, st.hist, st.pos, st.out⟩
            else copyLitsSlow mem numLit ⟨st.cur + hl, st.hist, st.pos, st.out⟩).pos,
         (if st.pos + numLit < 65536
            then copyLitsFast mem numLit ⟨st.cur + hl, st.hist, st.pos, st.out⟩
            else copyLitsSlow mem numLit ⟨st.cur + hl, st.hist, st.pos, st.out⟩).out⟩
        delta ml) := by
  have hst2c : (if st.pos + numLit < 65536
      then copyLitsFast mem numLit ⟨st.cur + hl, st.hist, st.pos, st.out⟩
      else copyLitsSlow mem numLit ⟨st.cur + hl, st.hist, st.pos, st.out⟩).cur =
      st.cur + hl + numLit := by
    split_ifs
    · rw [copyLitsFast_cur]
    · rw [copyLitsSlow_cur]
  simp only [decodeSeqLoop]
  rw [if_pos hblt, hext1]
  simp only []
  rw [if_neg (show ¬(blockOffset + 1 + (st.cur + hl - (st.cur + 1)) + numLit = blockSize)
    from by omega)]
  rw [hst2c, hdlo, hdhi,
      show delta % 256 + 256 * (delta / 256) = delta from by omega,
      if_neg hdpos, hext2]
  simp only []
  rw [show blockOffset + 1 + (st.cur + hl - (st.cur + 1)) + numLit + 2 +
        (st.cur + hl + numLit + 2 + el - (st.cur + hl + numLit + 2)) =
      blockOffset + hl + numLit + 2 + el from by omega]

/-- Simulation of `decodeSeqLoop` against the serializer `selectLoop` over a valid
    match table: the decoder consumes exactly the emitted payload and reconstructs
    the block. -/
theorem selectLoop_sim (s : List Nat) (base n : Nat) (lengths dists : Nat → Nat)
    (Fe : Nat) (hGT : GoodTable s base n lengths dists)
    (hbn : base + n ≤ s.length) (hFe : s.length + 4 ≤ Fe) :
    ∀ (fuel : Nat), ∀ (offset litFrom numLit : Nat), ∀ (mem : Nat → Nat),
    ∀ (Fd dfuel blockSize blockOffset : Nat), ∀ (st : DecState),
      offset < n → n + 1 ≤ fuel + offset → numLit ≤ offset →
      (0 < numLit → litFrom = offset - numLit) →
      (selectLoop s Fe lengths dists n base fuel offset litFrom numLit).length < dfuel →
      (selectLoop s Fe lengths dists n base fuel offset litFrom numLit).length < Fd →
      decInv (s.take (base + offset - numLit)) st →
      memAt mem st.cur (selectLoop s Fe lengths dists n base fuel offset litFrom numLit) →
      blockOffset + (selectLoop s Fe lengths dists n base fuel offset litFrom numLit).length
        = blockSize →
      ∃ st2 : DecState,
        decodeSeqLoop mem Fd blockSize dfuel blockOffset st = some (.ok st2) ∧
        decInv (s.take (base + n)) st2 ∧
        st2.cur = st.cur +
          (selectLoop s Fe lengths dists n base fuel offset litFrom numLit).length := by
  intro fuel
  induction fuel with
  | zero =>
    intro offset litFrom numLit mem Fd dfuel blockSize blockOffset st hofn hfo
    exact absurd hfo (by omega)
  | succ fuel ih =>
    intro offset litFrom numLit mem Fd dfuel blockSize blockOffset st
      hofn hfo hnlo hlf hdf hFd hInv hmem hbo
    simp only [selectLoop] at hmem hbo hdf hFd ⊢
    rw [if_pos hofn] at hmem hbo hdf hFd ⊢
    by_cases hlit : lengths offset ≤ 1
    · rw [if_pos hlit] at hmem hbo hdf hFd ⊢
      by_cases hnext : offset + 1 < n
      · rw [if_pos hnext] at hmem hbo hdf hFd ⊢
        have hlf2 : 0 < numLit + 1 →
            (if numLit = 0 then offset else litFrom) = offset + 1 - (numLit + 1) := by
          intro h1
          split_ifs with h0
          · omega
          · rw [hlf (by omega)]
            omega
        have hInv2 : decInv (s.take (base + (offset + 1) - (numLit + 1))) st := by
          rwa [show base + (offset + 1) - (numLit + 1) = base + offset - numLit
            from by omega]
        exact ih (offset + 1) (if numLit = 0 then offset else litFrom) (numLit + 1)
          mem Fd dfuel blockSize blockOffset st hnext (by omega) (by omega) hlf2
          hdf hFd hInv2 hmem hbo
      · rw [if_neg hnext] at hmem hbo hdf hFd ⊢
        have hlfv : (if numLit = 0 then offset else litFrom) = offset - numLit := by
          split_ifs with h0
          · omega
          · rw [hlf (by omega)]
        rw [hlfv] at hmem hbo hdf hFd ⊢
        rw [seqBytes_true_decomp s Fe base (offset - numLit) (numLit + 1) (by omega)]
          at hmem hbo hdf hFd ⊢
        rw [memAt_append] at hmem
        have hhl1 : 1 ≤ (if numLit + 1 < 15 then [16 * (numLit + 1) + 0]
            else (240 + 0) :: lenExt Fe (numLit + 1 - 15)).length := by
          split_ifs <;> simp
        rw [List.length_append, segBytes_length] at hbo hdf hFd
        have hext1 := (litHead_spec mem st.cur (numLit + 1) 0 Fe Fd (by omega)
          (by omega) (by omega) hmem.1).2
        obtain ⟨d, rfl⟩ : ∃ d, dfuel = d + 1 := ⟨dfuel - 1, by omega⟩
        rw [decodeSeqLoop_step_final mem Fd blockSize d blockOffset st (numLit + 1)
          ((if numLit + 1 < 15 then [16 * (numLit + 1) + 0]
            else (240 + 0) :: lenExt Fe (numLit + 1 - 15)).length) hhl1 (by omega)
          hext1 (by omega)]
        have hInv1 : decInv (s.take (base + n - (numLit + 1)))
            (⟨st.cur + (if numLit + 1 < 15 then [16 * (numLit + 1) + 0]
              else (240 + 0) :: lenExt Fe (numLit + 1 - 15)).length,
              st.hist, st.pos, st.out⟩ : DecState) := by
          rw [show base + n - (numLit + 1) = base + offset - numLit from by omega]
          exact hInv
        have hmemL : memAt mem (st.cur + (if numLit + 1 < 15 then [16 * (numLit + 1) + 0]
            else (240 + 0) :: lenExt Fe (numLit + 1 - 15)).length)
            (segBytes s (base + n - (numLit + 1)) (numLit + 1)) := by
          rw [show base + n - (numLit + 1) = base + (offset - numLit) from by omega]
          exact hmem.2
        have hcopy := litCopy_step s mem (base + n) (numLit + 1)
          (st.cur + (if numLit + 1 < 15 then [16 * (numLit + 1) + 0]
            else (240 + 0) :: lenExt Fe (numLit + 1 - 15)).length)
          st.pos st.hist st.out hInv1 (by omega) hbn hmemL
        refine ⟨_, rfl, hcopy.1, ?_⟩
        rw [hcopy.2, List.length_append, segBytes_length]
        omega
    · rw [if_neg hlit] at hmem hbo hdf hFd ⊢
      obtain ⟨hL4, hO12, hOL5, hD1, hD2, hDB, hBytes⟩ := (hGT offset).resolve_left hlit
      rw [seqBytes_false_decomp s Fe base litFrom numLit (lengths offset) (dists offset)]
        at hmem hbo hdf hFd ⊢
      set TL := if lengths offset - 4 < 15 then lengths offset - 4 else 15 with hTL
      set EXT := if 15 ≤ lengths offset - 4 then lenExt Fe (lengths offset - 4 - 15)
        else ([] : List Nat) with hEXT
      set HD := if numLit < 15 then [16 * numLit + TL]
        else (240 + TL) :: lenExt Fe (numLit - 15) with hHD
      set REST := selectLoop s Fe lengths dists n base fuel (offset + lengths offset)
        litFrom 0 with hREST
      rw [memAt_append] at hmem
      obtain ⟨hmemX, hmemR⟩ := hmem
      rw [memAt_append] at hmemX
      obtain ⟨hmemH, hmemY⟩ := hmemX
      rw [memAt_append] at hmemY
      obtain ⟨hmemS, hmemC⟩ := hmemY
      rw [segBytes_length] at hmemC
      rw [memAt_cons] at hmemC
      obtain ⟨hdlo, hmemC2⟩ := hmemC
      rw [memAt_cons] at hmemC2
      obtain ⟨hdhi, hmemE⟩ := hmemC2
      simp only [List.length_append, List.length_cons, segBytes_length] at hbo hdf hFd
      have htl16 : TL < 16 := by rw [hTL]; split_ifs <;> omega
      have hEXTlen : 15 ≤ lengths offset - 4 →
          EXT.length = (lengths offset - 4 - 15) / 255 + 1 := by
        intro h15
        rw [hEXT, if_pos h15]
        exact lenExt_length Fe (lengths offset - 4 - 15) (by omega)
      have hh := litHead_spec mem st.cur numLit TL Fe Fd htl16 (by omega) (by omega) hmemH
      have hmod := hh.1
      have hext1 := hh.2
      rw [← hHD] at hext1
      have hhl1 : 1 ≤ HD.length := by rw [hHD]; split_ifs <;> simp
      have hseg2 : memAt mem (st.cur + HD.length)
          (segBytes s (base + offset - numLit) numLit) := by
        by_cases h0 : numLit = 0
        · subst h0
          intro j hj
          exact absurd hj (by rw [segBytes_length]; omega)
        · rw [show base + offset - numLit = base + (offset - numLit) from by omega,
              ← hlf (by omega)]
          exact hmemS
      have hcopy := litCopy_step s mem (base + offset) numLit (st.cur + HD.length)
        st.pos st.hist st.out hInv (by omega) (by omega) hseg2
      have hext2 := matchTail_spec mem (st.cur + HD.length + numLit + 2)
        (lengths offset - 4) Fe Fd (by omega)
        (by by_cases h15 : 15 ≤ lengths offset - 4
            · have hel := hEXTlen h15
              omega
            · omega) hmemE
      rw [← hTL, ← hEXT, ← hmod,
          show 4 + (lengths offset - 4) = lengths offset from by omega] at hext2
      obtain ⟨d, rfl⟩ : ∃ d, dfuel = d + 1 := ⟨dfuel - 1, by omega⟩
      rw [decodeSeqLoop_step_match mem Fd blockSize d blockOffset st numLit HD.length
        (dists offset) (lengths offset) EXT.length hhl1 (by omega) hext1 (by omega)
        hdlo hdhi (by omega) hext2]
      have hp16 : ((⟨st.cur + HD.length + numLit + 2 + EXT.length,
          (if st.pos + numLit < 65536
            then copyLitsFast mem numLit ⟨st.cur + HD.length, st.hist, st.pos, st.out⟩
            else copyLitsSlow mem numLit ⟨st.cur + HD.length, st.hist, st.pos, st.out⟩).hist,
          (if st.pos + numLit < 65536
            then copyLitsFast mem numLit ⟨st.cur + HD.length, st.hist, st.pos, st.out⟩
            else copyLitsSlow mem numLit ⟨st.cur + HD.length, st.hist, st.pos, st.out⟩).pos,
          (if st.pos + numLit < 65536
            then copyLitsFast mem numLit ⟨st.cur + HD.length, st.hist, st.pos, st.out⟩
            else copyLitsSlow mem numLit ⟨st.cur + HD.length, st.hist, st.pos,
              st.out⟩).out⟩ : DecState)).pos < 65536 := by
        show (if st.pos + numLit < 65536
            then copyLitsFast mem numLit ⟨st.cur + HD.length, st.hist, st.pos, st.out⟩
            else copyLitsSlow mem numLit
              ⟨st.cur + HD.length, st.hist, st.pos, st.out⟩).pos < 65536
        rw [hcopy.1.2.1]
        exact Nat.mod_lt _ (by omega)
      rw [decodeMatchCopy_eq_ringCopy
        ⟨st.cur + HD.length + numLit + 2 + EXT.length,
          (if st.pos + numLit < 65536
            then copyLitsFast mem numLit ⟨st.cur + HD.length, st.hist, st.pos, st.out⟩
            else copyLitsSlow mem numLit ⟨st.cur + HD.length, st.hist, st.pos, st.out⟩).hist,
          (if st.pos + numLit < 65536
            then copyLitsFast mem numLit ⟨st.cur + HD.length, st.hist, st.pos, st.out⟩
            else copyLitsSlow mem numLit ⟨st.cur + HD.length, st.hist, st.pos, st.out⟩).pos,
          (if st.pos + numLit < 65536
            then copyLitsFast mem numLit ⟨st.cur + HD.length, st.hist, st.pos, st.out⟩
            else copyLitsSlow mem numLit ⟨st.cur + HD.length, st.hist, st.pos, st.out⟩).out⟩
        (dists offset) (lengths offset) hp16 hD1 hD2]
      have hring := ringCopy_decInv s (dists offset) hD1 hD2 (lengths offset)
        (base + offset)
        ⟨st.cur + HD.length + numLit + 2 + EXT.length,
          (if st.pos + numLit < 65536
            then copyLitsFast mem numLit ⟨st.cur + HD.length, st.hist, st.pos, st.out⟩
            else copyLitsSlow mem numLit ⟨st.cur + HD.length, st.hist, st.pos, st.out⟩).hist,
          (if st.pos + numLit < 65536
            then copyLitsFast mem numLit ⟨st.cur + HD.length, st.hist, st.pos, st.out⟩
            else copyLitsSlow mem numLit ⟨st.cur + HD.length, st.hist, st.pos, st.out⟩).pos,
          (if st.pos + numLit < 65536
            then copyLitsFast mem numLit ⟨st.cur + HD.length, st.hist, st.pos, st.out⟩
            else copyLitsSlow mem numLit ⟨st.cur + HD.length, st.hist, st.pos, st.out⟩).out⟩
        hcopy.1 (by omega) (by omega) hBytes
      have hmemR' : memAt mem (st.cur + HD.length + numLit + 2 + EXT.length) REST := by
        rwa [show st.cur + (HD ++ (segBytes s (base + litFrom) numLit ++
            (dists offset % 256 :: dists offset / 256 :: EXT))).length =
          st.cur + HD.length + numLit + 2 + EXT.length from by
            simp only [List.length_append, List.length_cons, segBytes_length]
            omega] at hmemR
      have hInv3 : decInv (s.take (base + (offset + lengths offset) - 0))
          (ringCopy (lengths offset)
            (((⟨st.cur + HD.length + numLit + 2 + EXT.length,
              (if st.pos + numLit < 65536
                then copyLitsFast mem numLit ⟨st.cur + HD.length, st.hist, st.pos, st.out⟩
                else copyLitsSlow mem numLit
                  ⟨st.cur + HD.length, st.hist, st.pos, st.out⟩).hist,
              (if st.pos + numLit < 65536
                then copyLitsFast mem numLit ⟨st.cur + HD.length, st.hist, st.pos, st.out⟩
                else copyLitsSlow mem numLit
                  ⟨st.cur + HD.length, st.hist, st.pos, st.out⟩).pos,
              (if st.pos + numLit < 65536
                then copyLitsFast mem numLit ⟨st.cur + HD.length, st.hist, st.pos, st.out⟩
                else copyLitsSlow mem numLit
                  ⟨st.cur + HD.length, st.hist, st.pos, st.out⟩).out⟩ :
                DecState).pos + 65536 - dists offset) % 65536)
            ⟨st.cur + HD.length + numLit + 2 + EXT.length,
              (if st.pos + numLit < 65536
                then copyLitsFast mem numLit ⟨st.cur + HD.length, st.hist, st.pos, st.out⟩
                else copyLitsSlow mem numLit
                  ⟨st.cur + HD.length, st.hist, st.pos, st.out⟩).hist,
              (if st.pos + numLit < 65536
                then copyLitsFast mem numLit ⟨st.cur + HD.length, st.hist, st.pos, st.out⟩
                else copyLitsSlow mem numLit
                  ⟨st.cur + HD.length, st.hist, st.pos, st.out⟩).pos,
              (if st.pos + numLit < 65536
                then copyLitsFast mem numLit ⟨st.cur + HD.length, st.hist, st.pos, st.out⟩
                else copyLitsSlow mem numLit
                  ⟨st.cur + HD.length, st.hist, st.pos, st.out⟩).out⟩) := by
        rw [show base + (offset + lengths offset) - 0 = base + offset + lengths offset
          from by omega]
        exact hring.1
      have hcur3 : _ = st.cur + HD.length + numLit + 2 + EXT.length := hring.2
      have hmem3 := hmemR'
      rw [← hcur3] at hmem3
      obtain ⟨st2, hs1, hs2, hs3⟩ := ih (offset + lengths offset) litFrom 0 mem Fd d
        blockSize (blockOffset + HD.length + numLit + 2 + EXT.length) _
        (by omega) (by omega) (by omega) (fun h => absurd h (by omega))
        (by rw [← hREST]; omega) (by rw [← hREST]; omega)
        hInv3 hmem3 (by rw [← hREST]; omega)
      refine ⟨st2, hs1, hs2, ?_⟩
      rw [hs3, ← hREST, hcur3]
      simp only [List.length_append, List.length_cons, segBytes_length]
      omega

/-! ## Encoder chain invariants -/

theorem byteAt_lt (s : List Nat) (hb : ∀ b ∈ s, b < 256) (p : Nat) : byteAt s p < 256 := by
  by_cases hp : p < s.length
  · rw [byteAt, List.getD_eq_getElem _ _ hp]
    exact hb _ (List.getElem_mem _)
  · rw [byteAt, List.getD_eq_default _ _ (by omega)]
    omega

theorem input4_bytes_eq (s : List Nat) (hb : ∀ b ∈ s, b < 256) (x y : Nat)
    (h : input4 s x = input4 s y) :
    byteAt s x = byteAt s y ∧ byteAt s (x + 1) = byteAt s (y + 1) ∧
    byteAt s (x + 2) = byteAt s (y + 2) ∧ byteAt s (x + 3) = byteAt s (y + 3) := by
  rw [input4, input4] at h
  have b1 := byteAt_lt s hb x
  have b2 := byteAt_lt s hb (x + 1)
  have b3 := byteAt_lt s hb (x + 2)
  have b4 := byteAt_lt s hb (x + 3)
  have b5 := byteAt_lt s hb y
  have b6 := byteAt_lt s hb (y + 1)
  have b7 := byteAt_lt s hb (y + 2)
  have b8 := byteAt_lt s hb (y + 3)
  refine ⟨by omega, by omega, by omega, by omega⟩

theorem first_four (s : List Nat) (hb : ∀ b ∈ s, b < 256) (pos td : Nat)
    (h : input4 s (pos - td) = input4 s pos) :
    ∀ j, j < 4 → byteAt s (pos + j) = byteAt s (pos - td + j) := by
  obtain ⟨e0, e1, e2, e3⟩ := input4_bytes_eq s hb _ _ h
  intro j hj
  interval_cases j
  · simpa using e0.symm
  · exact e1.symm
  · exact e2.symm
  · exact e3.symm

theorem mod_ne_of_close (q p : Nat) (h1 : q < p) (h2 : p - q ≤ 65535) :
    q % 65536 ≠ p % 65536 := by omega

theorem encInit_encOK (s : List Nat) : EncOK s 0 encInit := by
  refine ⟨fun _ => False, ?_, ?_, ?_, ?_, ?_⟩
  · intro h q hq
    exact absurd hq (by simp [encInit])
  · intro q hq
    exact absurd hq (fun h => h)
  · intro q hq
    exact absurd hq (fun h => h)
  · intro q hq
    exact absurd hq (fun h => h)
  · intro q hq
    exact absurd hq (fun h => h)

theorem exactWalk_valid (s : List Nat) (dataZero M p v : Nat) (I : Nat → Prop)
    (enc : EncState) (hinv : EncInv s M I enc) (hMp : M ≤ p) :
    ∀ fuel lhm dist b d,
      (I lhm ∨ lhm = p) → lhm ≤ p → dist = p - lhm → dist ≤ 65535 →
      exactWalk s dataZero (upd enc.prevHash (p % 65536) v) (input4 s p)
        (getHash32 (input4 s p)) fuel lhm dist = (b, d) →
      b = true →
      d ≤ 65535 ∧ d ≤ p ∧ (I (p - d) ∨ p - d = p) ∧ input4 s (p - d) = input4 s p := by
  intro fuel
  induction fuel with
  | zero =>
    intro lhm dist b d hI hlp hd h65 hres hb
    simp only [exactWalk] at hres
    injection hres with hb2 hd2
    subst hb2
    simp at hb
  | succ fuel ih =>
    intro lhm dist b d hI hlp hd h65 hres hb
    simp only [exactWalk] at hres
    by_cases he : input4 s lhm = input4 s p
    · rw [if_pos he] at hres
      injection hres with hb2 hd2
      subst hd2
      rw [show p - dist = lhm from by omega]
      exact ⟨h65, by omega, hI, he⟩
    · rw [if_neg he] at hres
      by_cases hh : getHash32 (input4 s lhm) ≠ getHash32 (input4 s p)
      · rw [if_pos hh] at hres
        injection hres with hb2 hd2
        subst hb2
        simp at hb
      · rw [if_neg hh] at hres
        have hne : lhm ≠ p := fun hq => he (by rw [hq])
        have hIl : I lhm := hI.resolve_right hne
        have hslot : lhm % 65536 ≠ p % 65536 := by omega
        rw [upd_ne _ _ _ _ hslot] at hres
        rcases hinv.hPH lhm hIl (by omega) with h0 | ⟨hn1, hn2, hn3, hn4⟩
        · rw [h0, if_pos rfl] at hres
          injection hres with hb2 hd2
          subst hb2
          simp at hb
        · rw [if_neg (by omega)] at hres
          by_cases h652 : 65535 < dist + enc.prevHash (lhm % 65536)
          · rw [if_pos h652] at hres
            injection hres with hb2 hd2
            subst hb2
            simp at hb
          · rw [if_neg h652] at hres
            by_cases hdz : lhm - enc.prevHash (lhm % 65536) < dataZero
            · rw [if_pos hdz] at hres
              injection hres with hb2 hd2
              subst hb2
              simp at hb
            · rw [if_neg hdz] at hres
              exact ih (lhm - enc.prevHash (lhm % 65536))
                (dist + enc.prevHash (lhm % 65536)) b d (Or.inl hn4) (by omega)
                (by omega) (by omega) hres hb

theorem encInv_extend (s : List Nat) (M p : Nat) (I : Nat → Prop) (enc : EncState)
    (hinv : EncInv s M I enc) (hMp : M ≤ p) (hp12 : p + 12 ≤ s.length)
    (hash dph dpe : Nat)
    (hdph : dph = 0 ∨ (1 ≤ dph ∧ dph ≤ 65535 ∧ dph ≤ p ∧ (I (p - dph) ∨ p - dph = p)))
    (hdpe : dpe = 0 ∨ (1 ≤ dpe ∧ dpe ≤ 65535 ∧ dpe ≤ p ∧ (I (p - dpe) ∨ p - dpe = p) ∧
      input4 s (p - dpe) = input4 s p)) :
    EncInv s p (fun q => I q ∨ q = p)
      ⟨updO enc.lastHash hash (some p), upd enc.prevHash (p % 65536) dph,
       upd enc.prevExact (p % 65536) dpe⟩ := by
  refine ⟨?_, ?_, ?_, ?_, ?_⟩
  · intro h q hq
    simp only [] at hq
    by_cases hh : h = hash
    · subst hh
      rw [show updO enc.lastHash h (some p) h = some p from by simp [updO]] at hq
      injection hq with h2
      exact Or.inr h2.symm
    · rw [show updO enc.lastHash hash (some p) h = enc.lastHash h from by
        simp [updO, hh]] at hq
      exact Or.inl (hinv.hLH h q hq)
  · intro q hq
    rcases hq with hq | rfl
    · exact Nat.le_trans (hinv.hIM q hq) hMp
    · exact le_refl _
  · intro q hq
    rcases hq with hq | rfl
    · exact hinv.hI12 q hq
    · exact hp12
  · intro q hq hq65
    simp only []
    by_cases hqp : q = p
    · subst hqp
      rw [upd_self]
      rcases hdph with h0 | ⟨ha, hb, hc, hd⟩
      · exact Or.inl h0
      · exact Or.inr ⟨ha, hb, hc, hd⟩
    · have hqI : I q := hq.resolve_right hqp
      have hql : q < p := Nat.lt_of_le_of_ne (Nat.le_trans (hinv.hIM q hqI) hMp) hqp
      rw [upd_ne _ _ _ _ (mod_ne_of_close q p hql (by omega))]
      rcases hinv.hPH q hqI (by omega) with h0 | ⟨ha, hb, hc, hd⟩
      · exact Or.inl h0
      · exact Or.inr ⟨ha, hb, hc, Or.inl hd⟩
  · intro q hq hq65
    simp only []
    by_cases hqp : q = p
    · subst hqp
      rw [upd_self]
      rcases hdpe with h0 | ⟨ha, hb, hc, hd, he⟩
      · exact Or.inl h0
      · exact Or.inr ⟨ha, hb, hc, hd, he⟩
    · have hqI : I q := hq.resolve_right hqp
      have hql : q < p := Nat.lt_of_le_of_ne (Nat.le_trans (hinv.hIM q hqI) hMp) hqp
      rw [upd_ne _ _ _ _ (mod_ne_of_close q p hql (by omega))]
      rcases hinv.hPE q hqI (by omega) with h0 | ⟨ha, hb, hc, hd, he⟩
      · exact Or.inl h0
      · exact Or.inr ⟨ha, hb, hc, Or.inl hd, he⟩

theorem chainUpdate_encOK (s : List Nat) (dataZero : Nat) (M p : Nat) (enc : EncState)
    (hok : EncOK s M enc) (hMp : M ≤ p) (hp12 : p + 12 ≤ s.length) :
    EncOKp s p (chainUpdate s dataZero enc p).1 := by
  obtain ⟨I, hinv⟩ := hok
  refine ⟨fun q => I q ∨ q = p, ?_, Or.inr rfl⟩
  rcases henc : enc.lastHash (getHash32 (input4 s p)) with _ | lhm
  · have hcu : (chainUpdate s dataZero enc p).1 =
        ⟨updO enc.lastHash (getHash32 (input4 s p)) (some p),
         upd enc.prevHash (p % 65536) 0, upd enc.prevExact (p % 65536) 0⟩ := by
      simp [chainUpdate, henc]
    rw [hcu]
    exact encInv_extend s M p I enc hinv hMp hp12 _ 0 0 (Or.inl rfl) (Or.inl rfl)
  · by_cases hfar : 65535 < p - lhm
    · have hcu : (chainUpdate s dataZero enc p).1 =
          ⟨updO enc.lastHash (getHash32 (input4 s p)) (some p),
           upd enc.prevHash (p % 65536) 0, upd enc.prevExact (p % 65536) 0⟩ := by
        simp [chainUpdate, henc, hfar]
      rw [hcu]
      exact encInv_extend s M p I enc hinv hMp hp12 _ 0 0 (Or.inl rfl) (Or.inl rfl)
    · have hlhm : I lhm := hinv.hLH _ lhm henc
      have hlp : lhm ≤ p := Nat.le_trans (hinv.hIM lhm hlhm) hMp
      have hdph : p - lhm = 0 ∨ (1 ≤ p - lhm ∧ p - lhm ≤ 65535 ∧ p - lhm ≤ p ∧
          (I (p - (p - lhm)) ∨ p - (p - lhm) = p)) := by
        by_cases h0 : p - lhm = 0
        · exact Or.inl h0
        · refine Or.inr ⟨by omega, by omega, by omega, ?_⟩
          rw [show p - (p - lhm) = lhm from by omega]
          exact Or.inl hlhm
      rcases hwalk : exactWalk s dataZero (upd enc.prevHash (p % 65536) (p - lhm))
          (input4 s p) (getHash32 (input4 s p)) 70000 lhm (p - lhm) with ⟨b, dist⟩
      cases b
      · have hcu : (chainUpdate s dataZero enc p).1 =
            ⟨updO enc.lastHash (getHash32 (input4 s p)) (some p),
             upd enc.prevHash (p % 65536) (p - lhm),
             upd enc.prevExact (p % 65536) 0⟩ := by
          simp [chainUpdate, henc, hfar, hwalk]
        rw [hcu]
        exact encInv_extend s M p I enc hinv hMp hp12 _ _ 0 hdph (Or.inl rfl)
      · have hew := exactWalk_valid s dataZero M p (p - lhm) I enc hinv hMp 70000
          lhm (p - lhm) true dist (Or.inl hlhm) hlp rfl (by omega) hwalk rfl
        have hcu : (chainUpdate s dataZero enc p).1 =
            ⟨updO enc.lastHash (getHash32 (input4 s p)) (some p),
             upd enc.prevHash (p % 65536) (p - lhm),
             upd enc.prevExact (p % 65536) dist⟩ := by
          simp [chainUpdate, henc, hfar, hwalk]
        rw [hcu]
        refine encInv_extend s M p I enc hinv hMp hp12 _ _ dist hdph ?_
        by_cases h0 : dist = 0
        · exact Or.inl h0
        · exact Or.inr ⟨by omega, hew.1, hew.2.1, hew.2.2.1, hew.2.2.2⟩

theorem encOK_mono (s : List Nat) (M M2 : Nat) (enc : EncState) (h : EncOK s M enc)
    (hM : M ≤ M2) : EncOK s M2 enc := by
  obtain ⟨I, hinv⟩ := h
  refine ⟨I, hinv.hLH, fun q hq => Nat.le_trans (hinv.hIM q hq) hM, hinv.hI12, ?_, ?_⟩
  · intro q hq h65
    exact hinv.hPH q hq (by omega)
  · intro q hq h65
    exact hinv.hPE q hq (by omega)

theorem encOKp_encOK (s : List Nat) (p : Nat) (enc : EncState) (h : EncOKp s p enc) :
    EncOK s p enc := by
  obtain ⟨I, h1, _⟩ := h
  exact ⟨I, h1⟩

theorem flmPhase1_spec (s : List Nat) (hb : ∀ b ∈ s, b < 256) (pos D : Nat)
    (hD : D ≤ pos) :
    ∀ fuel a, flmPhase1 s pos D fuel a ≤ a ∧
      (∀ x, flmPhase1 s pos D fuel a + 4 ≤ x → x < a + 4 →
        byteAt s x = byteAt s (x - D)) := by
  intro fuel
  induction fuel with
  | zero =>
    intro a
    simp only [flmPhase1]
    exact ⟨le_refl a, fun x h1 h2 => absurd h1 (by omega)⟩
  | succ fuel ih =>
    intro a
    by_cases hc : pos < a ∧ input4 s (a - D) = input4 s a
    · have heq : flmPhase1 s pos D (fuel + 1) a = flmPhase1 s pos D fuel (a - 4) := by
        simp only [flmPhase1]
        rw [if_pos hc]
      rw [heq]
      obtain ⟨ih1, ih2⟩ := ih (a - 4)
      refine ⟨by omega, ?_⟩
      intro x h1 h2
      by_cases hx : x < a - 4 + 4
      · exact ih2 x h1 hx
      · obtain ⟨e0, e1, e2, e3⟩ := input4_bytes_eq s hb (a - D) a hc.2
        have hxc : x = a ∨ x = a + 1 ∨ x = a + 2 ∨ x = a + 3 := by omega
        rcases hxc with rfl | rfl | rfl | rfl
        · exact e0.symm
        · rw [show a + 1 - D = a - D + 1 from by omega]
          exact e1.symm
        · rw [show a + 2 - D = a - D + 2 from by omega]
          exact e2.symm
        · rw [show a + 3 - D = a - D + 3 from by omega]
          exact e3.symm
    · have heq : flmPhase1 s pos D (fuel + 1) a = a := by
        simp only [flmPhase1]
        rw [if_neg hc]
      rw [heq]
      exact ⟨le_refl a, fun x h1 h2 => absurd h1 (by omega)⟩

theorem flmPhase2Fast_spec (s : List Nat) (hb : ∀ b ∈ s, b < 256) (D stop : Nat) :
    ∀ fuel a, D ≤ a →
      a ≤ flmPhase2Fast s D stop fuel a ∧
      (a ≤ stop → flmPhase2Fast s D stop fuel a ≤ stop) ∧
      (∀ x, a ≤ x → x < flmPhase2Fast s D stop fuel a →
        byteAt s x = byteAt s (x - D)) := by
  intro fuel
  induction fuel with
  | zero =>
    intro a hDa
    simp only [flmPhase2Fast]
    exact ⟨le_refl a, fun h => h, fun x h1 h2 => absurd h1 (by omega)⟩
  | succ fuel ih =>
    intro a hDa
    by_cases hc : a + 4 ≤ stop ∧ input4 s (a - D) = input4 s a
    · have heq : flmPhase2Fast s D stop (fuel + 1) a =
          flmPhase2Fast s D stop fuel (a + 4) := by
        simp only [flmPhase2Fast]
        rw [if_pos hc]
      rw [heq]
      obtain ⟨ih1, ih2, ih3⟩ := ih (a + 4) (by omega)
      refine ⟨by omega, fun _ => ih2 hc.1, ?_⟩
      intro x h1 h2
      by_cases hx : a + 4 ≤ x
      · exact ih3 x hx h2
      · obtain ⟨e0, e1, e2, e3⟩ := input4_bytes_eq s hb (a - D) a hc.2
        have hxc : x = a ∨ x = a + 1 ∨ x = a + 2 ∨ x = a + 3 := by omega
        rcases hxc with rfl | rfl | rfl | rfl
        · exact e0.symm
        · rw [show a + 1 - D = a - D + 1 from by omega]
          exact e1.symm
        · rw [show a + 2 - D = a - D + 2 from by omega]
          exact e2.symm
        · rw [show a + 3 - D = a - D + 3 from by omega]
          exact e3.symm
    · have heq : flmPhase2Fast s D stop (fuel + 1) a = a := by
        simp only [flmPhase2Fast]
        rw [if_neg hc]
      rw [heq]
      exact ⟨le_refl a, fun h => h, fun x h1 h2 => absurd h1 (by omega)⟩

theorem flmPhase2Slow_spec (s : List Nat) (D stop : Nat) :
    ∀ fuel a,
      a ≤ flmPhase2Slow s D stop fuel a ∧
      (a ≤ stop → flmPhase2Slow s D stop fuel a ≤ stop) ∧
      (∀ x, a ≤ x → x < flmPhase2Slow s D stop fuel a →
        byteAt s x = byteAt s (x - D)) ∧
      (stop - a < fuel →
        ¬(flmPhase2Slow s D stop fuel a < stop ∧
          byteAt s (flmPhase2Slow s D stop fuel a - D) =
            byteAt s (flmPhase2Slow s D stop fuel a))) := by
  intro fuel
  induction fuel with
  | zero =>
    intro a
    simp only [flmPhase2Slow]
    exact ⟨le_refl a, fun h => h, fun x h1 h2 => absurd h1 (by omega),
      fun h => absurd h (by omega)⟩
  | succ fuel ih =>
    intro a
    by_cases hc : a < stop ∧ byteAt s (a - D) = byteAt s a
    · have heq : flmPhase2Slow s D stop (fuel + 1) a =
          flmPhase2Slow s D stop fuel (a + 1) := by
        simp only [flmPhase2Slow]
        rw [if_pos hc]
      rw [heq]
      obtain ⟨ih1, ih2, ih3, ih4⟩ := ih (a + 1)
      refine ⟨by omega, fun _ => ih2 (by omega), ?_, fun hf => ih4 (by omega)⟩
      intro x h1 h2
      by_cases hx : a + 1 ≤ x
      · exact ih3 x hx h2
      · have hxa : x = a := by omega
        subst hxa
        exact hc.2.symm
    · have heq : flmPhase2Slow s D stop (fuel + 1) a = a := by
        simp only [flmPhase2Slow]
        rw [if_neg hc]
      rw [heq]
      exact ⟨le_refl a, fun h => h, fun x h1 h2 => absurd h1 (by omega), fun _ => hc⟩

theorem flm_candidate (s : List Nat) (hb : ∀ b ∈ s, b < 256) (pos stop td F : Nat)
    (h1 : 1 ≤ td) (h2 : td ≤ 65535) (h3 : td ≤ pos)
    (hI4 : input4 s (pos - td) = input4 s pos)
    (bl : Nat) (hbl : 1 ≤ bl)
    (hstop : pos + bl + 1 ≤ stop) (hstop4 : pos + 4 ≤ stop) (hF : stop < F)
    (hph1 : flmPhase1 s pos td F (pos + bl + 1 - 4) ≤ pos) :
    GoodMatch s pos stop
      (flmPhase2Slow s td stop F (flmPhase2Fast s td stop F (pos + bl + 1)) - pos)
      td := by
  have hff := first_four s hb pos td hI4
  obtain ⟨hf1, hf2, hf3⟩ := flmPhase2Fast_spec s hb td stop F (pos + bl + 1) (by omega)
  obtain ⟨hs1, hs2, hs3, hs4⟩ :=
    flmPhase2Slow_spec s td stop F (flmPhase2Fast s td stop F (pos + bl + 1))
  obtain ⟨hp1a, hp1b⟩ := flmPhase1_spec s hb pos td h3 F (pos + bl + 1 - 4)
  set fr := flmPhase2Fast s td stop F (pos + bl + 1) with hfr
  set p2 := flmPhase2Slow s td stop F fr with hp2
  have hfrstop : fr ≤ stop := hf2 hstop
  have hp2stop : p2 ≤ stop := hs2 hfrstop
  have hp2ge : pos + bl + 1 ≤ p2 := by omega
  have hp2ge4 : pos + 4 ≤ p2 := by
    by_contra hlt
    apply hs4 (by omega)
    refine ⟨by omega, ?_⟩
    have hffj := hff (p2 - pos) (by omega)
    rw [show pos + (p2 - pos) = p2 from by omega,
        show pos - td + (p2 - pos) = p2 - td from by omega] at hffj
    exact hffj.symm
  have hyb : ∀ x, pos ≤ x → x < p2 → byteAt s x = byteAt s (x - td) := by
    intro x hx1 hx2
    by_cases hxa : x < pos + 4
    · have hffj := hff (x - pos) (by omega)
      rw [show pos + (x - pos) = x from by omega,
          show pos - td + (x - pos) = x - td from by omega] at hffj
      exact hffj
    · by_cases hxb : x < pos + bl + 1
      · exact hp1b x (by omega) (by omega)
      · by_cases hxc : x < fr
        · exact hf3 x (by omega) hxc
        · exact hs3 x (by omega) hx2
  refine ⟨by omega, by omega, h1, h2, h3, ?_⟩
  intro j hj
  have hx := hyb (pos + j) (by omega) (by omega)
  rwa [show pos + j - td = pos - td + j from by omega] at hx

theorem flmLoop_valid (s : List Nat) (hb : ∀ b ∈ s, b < 256) (pos stop F : Nat)
    (I : Nat → Prop) (enc : EncState) (hinv : EncInv s pos I enc)
    (hstop4 : pos + 4 ≤ stop) (hF : stop < F) :
    ∀ fuel distance totalDistance steps bl bd,
      totalDistance ≤ pos → totalDistance ≤ 65535 →
      I (pos - totalDistance) →
      input4 s (pos - totalDistance) = input4 s pos →
      (distance = 0 ∨ distance = enc.prevExact ((pos - totalDistance) % 65536)) →
      1 ≤ bl →
      (bl = 1 ∨ GoodMatch s pos stop bl bd) →
      (flmLoop s pos stop enc.prevExact F fuel distance totalDistance steps bl bd).1 = 1 ∨
      GoodMatch s pos stop
        (flmLoop s pos stop enc.prevExact F fuel distance totalDistance steps bl bd).1
        (flmLoop s pos stop enc.prevExact F fuel distance totalDistance steps bl bd).2 := by
  intro fuel
  induction fuel with
  | zero =>
    intro distance totalDistance steps bl bd _ _ _ _ _ _ hblgood
    exact hblgood
  | succ fuel ih =>
    intro distance totalDistance steps bl bd htp ht65 hIc hI4 hdist hbl1 hblgood
    by_cases hd0 : distance = 0
    · have heq : flmLoop s pos stop enc.prevExact F (fuel + 1) distance
          totalDistance steps bl bd = (bl, bd) := by
        simp only [flmLoop]
        rw [if_pos hd0]
      rw [heq]
      exact hblgood
    · have hchain : distance = enc.prevExact ((pos - totalDistance) % 65536) :=
        hdist.resolve_left hd0
      have hpe := hinv.hPE (pos - totalDistance) hIc (by omega)
      rcases hpe with hz | ⟨ha, hb2, hc, hd, he⟩
      · rw [hchain] at hd0
        exact absurd hz hd0
      · rw [← hchain] at ha hb2 hc hd he
        have hIc2 : I (pos - (totalDistance + distance)) := by
          rw [show pos - (totalDistance + distance) = pos - totalDistance - distance
            from by omega]
          exact hd
        have hI42 : input4 s (pos - (totalDistance + distance)) = input4 s pos := by
          rw [show pos - (totalDistance + distance) = pos - totalDistance - distance
            from by omega]
          exact he.trans hI4
        by_cases htd : 65535 < totalDistance + distance
        · have heq : flmLoop s pos stop enc.prevExact F (fuel + 1) distance
              totalDistance steps bl bd = (bl, bd) := by
            simp only [flmLoop]
            rw [if_neg hd0, if_pos htd]
          rw [heq]
          exact hblgood
        · have hnd : enc.prevExact ((pos + 65536 - (totalDistance + distance)) % 65536)
              = enc.prevExact ((pos - (totalDistance + distance)) % 65536) := by
            rw [show (pos + 65536 - (totalDistance + distance)) % 65536 =
              (pos - (totalDistance + distance)) % 65536 from by omega]
          by_cases hsa : stop < pos + bl + 1
          · have heq : flmLoop s pos stop enc.prevExact F (fuel + 1) distance
                totalDistance steps bl bd = (bl, bd) := by
              simp only [flmLoop]
              rw [if_neg hd0, if_neg htd, if_pos hsa]
            rw [heq]
            exact hblgood
          · by_cases hpp : pos < flmPhase1 s pos (totalDistance + distance) F
                (pos + bl + 1 - 4)
            · have heq : flmLoop s pos stop enc.prevExact F (fuel + 1) distance
                  totalDistance steps bl bd =
                  flmLoop s pos stop enc.prevExact F fuel
                    (enc.prevExact ((pos + 65536 - (totalDistance + distance)) % 65536))
                    (totalDistance + distance) steps bl bd := by
                simp only [flmLoop]
                rw [if_neg hd0, if_neg htd, if_neg hsa, if_pos hpp]
              rw [heq]
              exact ih _ (totalDistance + distance) steps bl bd (by omega) (by omega)
                hIc2 hI42 (Or.inr hnd) hbl1 hblgood
            · have hcand := flm_candidate s hb pos stop (totalDistance + distance) F
                (by omega) (by omega) (by omega) hI42 bl hbl1 (by omega) hstop4 hF
                (by omega)
              by_cases hst : (steps + 65535) % 65536 = 0
              · have heq : flmLoop s pos stop enc.prevExact F (fuel + 1) distance
                    totalDistance steps bl bd =
                    (flmPhase2Slow s (totalDistance + distance) stop F
                      (flmPhase2Fast s (totalDistance + distance) stop F
                        (pos + bl + 1)) - pos, totalDistance + distance) := by
                  simp only [flmLoop]
                  rw [if_neg hd0, if_neg htd, if_neg hsa, if_neg hpp, if_pos hst]
                rw [heq]
                exact Or.inr hcand
              · have heq : flmLoop s pos stop enc.prevExact F (fuel + 1) distance
                    totalDistance steps bl bd =
                    flmLoop s pos stop enc.prevExact F fuel
                      (enc.prevExact ((pos + 65536 - (totalDistance + distance)) % 65536))
                      (totalDistance + distance) ((steps + 65535) % 65536)
                      (flmPhase2Slow s (totalDistance + distance) stop F
                        (flmPhase2Fast s (totalDistance + distance) stop F
                          (pos + bl + 1)) - pos) (totalDistance + distance) := by
                  simp only [flmLoop]
                  rw [if_neg hd0, if_neg htd, if_neg hsa, if_neg hpp, if_neg hst]
                rw [heq]
                exact ih _ (totalDistance + distance) _ _ _ (by omega) (by omega)
                  hIc2 hI42 (Or.inr hnd) (by have := hcand.1; omega)
                  (Or.inr hcand)

theorem findLongestMatch_valid (s : List Nat) (hb : ∀ b ∈ s, b < 256)
    (pos stop L F dist0 : Nat) (I : Nat → Prop) (enc : EncState)
    (hinv : EncInv s pos I enc) (hIpos : I pos)
    (hstop4 : pos + 4 ≤ stop) (hF : stop < F) :
    (findLongestMatch s pos stop enc.prevExact L F dist0).1 = 1 ∨
    GoodMatch s pos stop (findLongestMatch s pos stop enc.prevExact L F dist0).1
      (findLongestMatch s pos stop enc.prevExact L F dist0).2 := by
  have h0 := flmLoop_valid s hb pos stop F I enc hinv hstop4 hF F
    (enc.prevExact (pos % 65536)) 0 L 1 dist0 (by omega) (by omega)
    (by rw [show pos - 0 = pos from by omega]; exact hIpos)
    (by rw [show pos - 0 = pos from by omega])
    (Or.inr (by rw [show pos - 0 = pos from by omega])) (le_refl 1) (Or.inl rfl)
  exact h0

theorem goodTable_upd_entry (s : List Nat) (base n : Nat) (lengths dists : Nat → Nat)
    (htab : GoodTable s base n lengths dists) (i l d : Nat)
    (hval : l ≤ 1 ∨ (4 ≤ l ∧ i + 12 ≤ n ∧ i + l + 5 ≤ n ∧ 1 ≤ d ∧ d ≤ 65535 ∧
      d ≤ base + i ∧ ∀ j, j < l → byteAt s (base + i + j) = byteAt s (base + i - d + j))) :
    GoodTable s base n (upd lengths i l) (upd dists i d) := by
  intro j
  by_cases hj : j = i
  · subst hj
    rw [upd_self, upd_self]
    exact hval
  · rw [upd_ne _ _ _ _ hj, upd_ne _ _ _ _ hj]
    exact htab j

theorem mfStep_valid (s : List Nat) (hb : ∀ b ∈ s, b < 256)
    (L F lastBlock nextBlock dataZero p M : Nat) (st : BlockSt)
    (hok : EncOK s M st.enc) (hMp : M ≤ p)
    (hp12 : p + 12 ≤ nextBlock) (hnb : nextBlock ≤ s.length)
    (hFbig : s.length + 5 ≤ F)
    (htab : GoodTable s lastBlock (nextBlock - lastBlock) st.m.lengths
      st.m.distances) :
    GoodTable s lastBlock (nextBlock - lastBlock)
      (mfStep s L F lastBlock nextBlock dataZero p st).m.lengths
      (mfStep s L F lastBlock nextBlock dataZero p st).m.distances ∧
    EncOK s p (mfStep s L F lastBlock nextBlock dataZero p st).enc := by
  have hp12s : p + 12 ≤ s.length := by omega
  by_cases hsc : lastBlock < p ∧ byteAt s p = byteAt s (p - 1) ∧
      st.m.distances (p - 1 - lastBlock) = 1 ∧ 65299 < st.m.lengths (p - 1 - lastBlock)
  · simp only [mfStep]
    rw [if_pos hsc]
    simp only []
    obtain ⟨hsc1, hsc2, hsc3, hsc4⟩ := hsc
    obtain ⟨ho4, ho12, ho5, hod1, hod2, hodb, hob⟩ :=
      (htab (p - 1 - lastBlock)).resolve_left (by omega)
    rw [hsc3] at hodb
    have hp2 : 2 ≤ p := by omega
    refine ⟨goodTable_upd_entry s lastBlock (nextBlock - lastBlock) _ _ htab _ _ _
      (Or.inr ⟨by omega, by omega, by omega, by omega, by omega, by omega, ?_⟩),
      encOK_mono s M p st.enc hok hMp⟩
    intro j hj
    have hjj := hob (j + 1) (by omega)
    rw [hsc3] at hjj
    rw [show lastBlock + (p - 1 - lastBlock) + (j + 1) =
          lastBlock + (p - lastBlock) + j from by omega,
        show lastBlock + (p - 1 - lastBlock) - 1 + (j + 1) =
          lastBlock + (p - lastBlock) - 1 + j from by omega] at hjj
    exact hjj
  · simp only [mfStep]
    rw [if_neg hsc]
    rcases hr2 : (chainUpdate s dataZero st.enc p).2 with _ | dist
    · simp only []
      exact ⟨htab, encOKp_encOK s p _
        (chainUpdate_encOK s dataZero M p st.enc hok hMp hp12s)⟩
    · simp only []
      obtain ⟨I, hinv, hIp⟩ := chainUpdate_encOK s dataZero M p st.enc hok hMp hp12s
      have hencp : EncOK s p (chainUpdate s dataZero st.enc p).1 := ⟨I, hinv⟩
      by_cases hplb : p < lastBlock
      · rw [if_pos hplb]
        exact ⟨htab, hencp⟩
      · rw [if_neg hplb]
        have hfr := findLongestMatch_valid s hb p (nextBlock - 5) L F
          (st.m.distances (p - lastBlock)) I (chainUpdate s dataZero st.enc p).1
          hinv hIp (by omega) (by omega)
        have hm2 : GoodTable s lastBlock (nextBlock - lastBlock)
            (upd st.m.lengths (p - lastBlock)
              (findLongestMatch s p (nextBlock - 5)
                (chainUpdate s dataZero st.enc p).1.prevExact L F
                (st.m.distances (p - lastBlock))).1)
            (upd st.m.distances (p - lastBlock)
              (findLongestMatch s p (nextBlock - 5)
                (chainUpdate s dataZero st.enc p).1.prevExact L F
                (st.m.distances (p - lastBlock))).2) := by
          refine goodTable_upd_entry s lastBlock (nextBlock - lastBlock) _ _ htab _ _ _ ?_
          rcases hfr with h1 | hG
          · exact Or.inl (by omega)
          · obtain ⟨g4, gstop, gd1, gd2, gdp, gbytes⟩ := hG
            refine Or.inr ⟨g4, by omega, by omega, gd1, gd2, by omega, ?_⟩
            intro j hj
            have hbj := gbytes j hj
            rw [show p + j = lastBlock + (p - lastBlock) + j from by omega] at hbj
            rw [show p - (findLongestMatch s p (nextBlock - 5)
                  (chainUpdate s dataZero st.enc p).1.prevExact L F
                  (st.m.distances (p - lastBlock))).2 + j =
                lastBlock + (p - lastBlock) - (findLongestMatch s p (nextBlock - 5)
                  (chainUpdate s dataZero st.enc p).1.prevExact L F
                  (st.m.distances (p - lastBlock))).2 + j from by omega] at hbj
            exact hbj
        by_cases hskip : 0 < st.skipMatches
        · rw [if_pos hskip]
          by_cases hlz : st.lazyEvaluation = true
          · rw [if_neg (by simp [hlz])]
            by_cases hL6 : L ≤ 6 ∧ (findLongestMatch s p (nextBlock - 5)
                (chainUpdate s dataZero st.enc p).1.prevExact L F
                (st.m.distances (p - lastBlock))).1 ≠ 1
            · rw [if_pos hL6]
              exact ⟨hm2, hencp⟩
            · rw [if_neg hL6]
              exact ⟨hm2, hencp⟩
          · rw [if_pos hlz]
            exact ⟨htab, hencp⟩
        · rw [if_neg hskip]
          by_cases hL6 : L ≤ 6 ∧ (findLongestMatch s p (nextBlock - 5)
              (chainUpdate s dataZero st.enc p).1.prevExact L F
              (st.m.distances (p - lastBlock))).1 ≠ 1
          · rw [if_pos hL6]
            exact ⟨hm2, hencp⟩
          · rw [if_neg hL6]
            exact ⟨hm2, hencp⟩

theorem matchLoop_valid (s : List Nat) (hb : ∀ b ∈ s, b < 256)
    (L F lastBlock nextBlock dataZero : Nat)
    (hnb : nextBlock ≤ s.length) (hFbig : s.length + 5 ≤ F) :
    ∀ fuel p st M, EncOK s M st.enc → M ≤ p →
      GoodTable s lastBlock (nextBlock - lastBlock) st.m.lengths st.m.distances →
      GoodTable s lastBlock (nextBlock - lastBlock)
        (matchLoop s L F lastBlock nextBlock dataZero fuel p st).m.lengths
        (matchLoop s L F lastBlock nextBlock dataZero fuel p st).m.distances ∧
      ∃ M2, EncOK s M2 (matchLoop s L F lastBlock nextBlock dataZero fuel p st).enc ∧
        M2 ≤ max M (nextBlock - 12) := by
  intro fuel
  induction fuel with
  | zero =>
    intro p st M hok hMp htab
    exact ⟨htab, M, hok, le_max_left _ _⟩
  | succ fuel ih =>
    intro p st M hok hMp htab
    by_cases hg : p + 12 ≤ nextBlock ∧ L ≠ 0
    · have heq : matchLoop s L F lastBlock nextBlock dataZero (fuel + 1) p st =
          matchLoop s L F lastBlock nextBlock dataZero fuel (p + 1)
            (mfStep s L F lastBlock nextBlock dataZero p st) := by
        simp only [matchLoop]
        rw [if_pos hg]
      rw [heq]
      obtain ⟨htab2, hok2⟩ := mfStep_valid s hb L F lastBlock nextBlock dataZero p M st
        hok hMp hg.1 hnb hFbig htab
      obtain ⟨htab3, M2, hok3, hM2⟩ := ih (p + 1) _ p hok2 (by omega) htab2
      refine ⟨htab3, M2, hok3, by omega⟩
    · have heq : matchLoop s L F lastBlock nextBlock dataZero (fuel + 1) p st = st := by
        simp only [matchLoop]
        rw [if_neg hg]
      rw [heq]
      exact ⟨htab, M, hok, le_max_left _ _⟩

theorem tryLengths_range (cost : Nat → Nat) (i : Nat) :
    ∀ count len extraCost nci bl mc, 4 ≤ len →
      (bl = 1 ∨ (4 ≤ bl ∧ bl < len)) →
      ((tryLengths cost i count len extraCost nci bl mc).1 = 1 ∨
       (4 ≤ (tryLengths cost i count len extraCost nci bl mc).1 ∧
        (tryLengths cost i count len extraCost nci bl mc).1 < len + count)) := by
  intro count
  induction count with
  | zero =>
    intro len ec nci bl mc hlen hbl
    simp only [tryLengths]
    rcases hbl with h | ⟨h1, h2⟩
    · exact Or.inl h
    · exact Or.inr ⟨h1, by omega⟩
  | succ count ih =>
    intro len ec nci bl mc hlen hbl
    simp only [tryLengths]
    have hbl2 : (if cost (i + len) + ec ≤ mc then len else bl) = 1 ∨
        (4 ≤ (if cost (i + len) + ec ≤ mc then len else bl) ∧
         (if cost (i + len) + ec ≤ mc then len else bl) < len + 1) := by
      split_ifs with hc
      · exact Or.inr ⟨hlen, by omega⟩
      · rcases hbl with h | ⟨h1, h2⟩
        · exact Or.inl h
        · exact Or.inr ⟨h1, by omega⟩
    rcases ih (len + 1) (if len = nci then ec + 1 else ec)
        (if len = nci then nci + 255 else nci)
        (if cost (i + len) + ec ≤ mc then len else bl)
        (if cost (i + len) + ec ≤ mc then cost (i + len) + ec else mc)
        (by omega) hbl2 with h | ⟨h1, h2⟩
    · exact Or.inl h
    · exact Or.inr ⟨h1, by omega⟩

theorem goodTable_shrink (s : List Nat) (base n : Nat) (lengths dists : Nat → Nat)
    (htab : GoodTable s base n lengths dists) (i v : Nat)
    (hv : v = lengths i ∨ v ≤ 1 ∨ (4 ≤ v ∧ v ≤ lengths i)) :
    GoodTable s base n (upd lengths i v) dists := by
  intro j
  by_cases hj : j = i
  · subst hj
    rw [upd_self]
    rcases hv with rfl | h1 | ⟨h4, hle⟩
    · exact htab j
    · exact Or.inl h1
    · rcases htab j with hl | ⟨g4, g12, g5, gd1, gd2, gdb, gb⟩
      · exact Or.inl (by omega)
      · exact Or.inr ⟨h4, g12, by omega, gd1, gd2, gdb, fun k hk => gb k (by omega)⟩
  · rw [upd_ne _ _ _ _ hj]
    exact htab j

theorem ecValue_range (cost lengths dists : Nat → Nat) (count A mc : Nat) :
    (if 65299 ≤ lengths count ∧ dists count = 1 then (lengths count, A)
     else tryLengths cost count (lengths count - 3) 4 3 18 1 mc).1 = lengths count ∨
    (if 65299 ≤ lengths count ∧ dists count = 1 then (lengths count, A)
     else tryLengths cost count (lengths count - 3) 4 3 18 1 mc).1 ≤ 1 ∨
    (4 ≤ (if 65299 ≤ lengths count ∧ dists count = 1 then (lengths count, A)
       else tryLengths cost count (lengths count - 3) 4 3 18 1 mc).1 ∧
     (if 65299 ≤ lengths count ∧ dists count = 1 then (lengths count, A)
       else tryLengths cost count (lengths count - 3) 4 3 18 1 mc).1 ≤ lengths count) := by
  by_cases hbr : 65299 ≤ lengths count ∧ dists count = 1
  · rw [if_pos hbr]
    exact Or.inl rfl
  · rw [if_neg hbr]
    rcases tryLengths_range cost count (lengths count - 3) 4 3 18 1 mc (le_refl 4)
        (Or.inl rfl) with h1 | ⟨h4, hlt⟩
    · exact Or.inr (Or.inl (by omega))
    · exact Or.inr (Or.inr ⟨h4, by omega⟩)

theorem ecLoop_good (s : List Nat) (base n : Nat) (dists : Nat → Nat) :
    ∀ count cost lengths numLiterals,
      GoodTable s base n lengths dists →
      GoodTable s base n (ecLoop dists count cost lengths numLiterals).2 dists := by
  intro count
  induction count with
  | zero =>
    intro cost lengths nl htab
    simpa only [ecLoop] using htab
  | succ count ih =>
    intro cost lengths nl htab
    simp only [ecLoop]
    apply ih
    exact goodTable_shrink s base n lengths dists htab count _
      (ecValue_range cost lengths dists count _ _)

theorem goodTable_tail (s : List Nat) (base n : Nat) (lengths dists : Nat → Nat)
    (htab : GoodTable s base n lengths dists) (a b : Nat) :
    GoodTable s base n (fun j => if a ≤ j ∧ j < b then 1 else lengths j) dists := by
  intro i
  simp only []
  by_cases hi : a ≤ i ∧ i < b
  · rw [if_pos hi]
    exact Or.inl (by omega)
  · rw [if_neg hi]
    exact htab i

theorem blockTable_valid (s : List Nat) (hb : ∀ b ∈ s, b < 256)
    (L F lastBlock nextBlock dataZero M : Nat) (enc : EncState)
    (hnb : nextBlock ≤ s.length) (hFbig : s.length + 5 ≤ F)
    (hok : EncOK s M enc) (hM : M ≤ lastBlock - min dataZero 12) :
    GoodTable s lastBlock (nextBlock - lastBlock)
      (blockTable s L F enc lastBlock nextBlock dataZero).1.lengths
      (blockTable s L F enc lastBlock nextBlock dataZero).1.distances ∧
    ∃ M2, EncOK s M2 (blockTable s L F enc lastBlock nextBlock dataZero).2 ∧
      M2 ≤ max lastBlock (nextBlock - 12) := by
  have hlb : (if L = 0 then 0 else min dataZero 12) ≤ min dataZero 12 := by
    split_ifs <;> omega
  obtain ⟨htab1, M2, hok2, hM2⟩ := matchLoop_valid s hb L F lastBlock nextBlock dataZero
    hnb hFbig (nextBlock - lastBlock + 13)
    (lastBlock - (if L = 0 then 0 else min dataZero 12))
    ⟨enc, ⟨fun _ => 0, fun _ => 0⟩, 0, false⟩ M hok (by omega)
    (fun i => Or.inl (Nat.zero_le 1))
  constructor
  · simp only [blockTable]
    by_cases hec : 12 < (if L = 0 then 0 else nextBlock - lastBlock) ∧ 3 < L
    · rw [if_pos hec]
      exact ecLoop_good s lastBlock (nextBlock - lastBlock) _ _ _ _ _
        (goodTable_tail s lastBlock (nextBlock - lastBlock) _ _ htab1 _ _)
    · rw [if_neg hec]
      exact goodTable_tail s lastBlock (nextBlock - lastBlock) _ _ htab1 _ _
  · refine ⟨M2, ?_, by omega⟩
    simp only [blockTable]
    exact hok2

theorem memAt_le4 (mem : Nat → Nat) (c x : Nat) (h : memAt mem c (le4 x)) :
    mem c = x % 256 ∧ mem (c + 1) = x / 256 % 256 ∧ mem (c + 2) = x / 65536 % 256 ∧
    mem (c + 3) = x / 16777216 % 256 := by
  rw [show le4 x = x % 256 :: x / 256 % 256 :: x / 65536 % 256 ::
    x / 16777216 % 256 :: [] from rfl] at h
  rw [memAt_cons, memAt_cons, memAt_cons, memAt_cons] at h
  exact ⟨h.1, h.2.1, h.2.2.1, h.2.2.2.1⟩

theorem selectLoop_len_pos (s : List Nat) (Fe : Nat) (lengths dists : Nat → Nat)
    (n base : Nat) :
    ∀ fuel offset litFrom numLit, offset < n → n + 1 ≤ fuel + offset →
      0 < (selectLoop s Fe lengths dists n base fuel offset litFrom numLit).length := by
  intro fuel
  induction fuel with
  | zero =>
    intro o lf nl h1 h2
    exact absurd h2 (by omega)
  | succ fuel ih =>
    intro offset litFrom numLit h1 h2
    simp only [selectLoop]
    rw [if_pos h1]
    by_cases hlit : lengths offset ≤ 1
    · rw [if_pos hlit]
      by_cases hnext : offset + 1 < n
      · rw [if_pos hnext]
        exact ih (offset + 1) _ (numLit + 1) hnext (by omega)
      · rw [if_neg hnext]
        rw [seqBytes_true_decomp s Fe base _ (numLit + 1) (by omega)]
        rw [List.length_append]
        have h3 : 1 ≤ (if numLit + 1 < 15 then [16 * (numLit + 1) + 0]
            else (240 + 0) :: lenExt Fe (numLit + 1 - 15)).length := by
          split_ifs <;> simp
        omega
    · rw [if_neg hlit]
      rw [List.length_append, seqBytes_false_decomp, List.length_append]
      have h3 : 1 ≤ (if numLit < 15
          then [16 * numLit + (if lengths offset - 4 < 15 then lengths offset - 4
            else 15)]
          else (240 + (if lengths offset - 4 < 15 then lengths offset - 4 else 15)) ::
            lenExt Fe (numLit - 15)).length := by
        split_ifs <;> simp
      omega

theorem compressBlock_decode (s : List Nat) (hb : ∀ b ∈ s, b < 256)
    (L : Nat) (enc : EncState) (lastBlock NB2 dataZero M : Nat)
    (hlt : lastBlock < NB2) (hnb : NB2 ≤ s.length) (hBS : NB2 - lastBlock ≤ 4194304)
    (hok : EncOK s M enc) (hM : M ≤ lastBlock - min dataZero 12)
    (mem : Nat → Nat) (st : DecState) (d Fdec : Nat)
    (hInv : decInv (s.take lastBlock) st)
    (hmem : memAt mem st.cur
      (compressBlock s L (s.length + 70000) enc lastBlock NB2 dataZero).1)
    (hFdec : (compressBlock s L (s.length + 70000) enc lastBlock NB2
      dataZero).1.length ≤ Fdec) :
    ∃ st2 : DecState,
      decodeBlockLoop mem Fdec false (d + 1) st =
        decodeBlockLoop mem Fdec false d st2 ∧
      decInv (s.take NB2) st2 ∧
      st2.cur = st.cur +
        (compressBlock s L (s.length + 70000) enc lastBlock NB2 dataZero).1.length := by
  obtain ⟨hGT, M2, hokT, hM2⟩ := blockTable_valid s hb L (s.length + 70000) lastBlock
    NB2 dataZero M enc hnb (by omega) hok hM
  by_cases huc : (selectBestMatches s (s.length + 70000)
      (blockTable s L (s.length + 70000) enc lastBlock NB2 dataZero).1
      (if L = 0 then 0 else NB2 - lastBlock) lastBlock).length < NB2 - lastBlock ∧
      L ≠ 0
  · have hnM : (if L = 0 then 0 else NB2 - lastBlock) = NB2 - lastBlock :=
      if_neg huc.2
    have hcb : (compressBlock s L (s.length + 70000) enc lastBlock NB2 dataZero).1 =
        le4 (selectBestMatches s (s.length + 70000)
            (blockTable s L (s.length + 70000) enc lastBlock NB2 dataZero).1
            (if L = 0 then 0 else NB2 - lastBlock) lastBlock).length ++
          selectBestMatches s (s.length + 70000)
            (blockTable s L (s.length + 70000) enc lastBlock NB2 dataZero).1
            (if L = 0 then 0 else NB2 - lastBlock) lastBlock := by
      simp only [compressBlock]
      rw [if_pos huc, if_pos huc, if_pos huc, Nat.add_zero]
    rw [hcb] at hmem hFdec ⊢
    rw [hnM] at hmem huc hFdec ⊢
    have hsel : selectBestMatches s (s.length + 70000)
        (blockTable s L (s.length + 70000) enc lastBlock NB2 dataZero).1
        (NB2 - lastBlock) lastBlock =
        selectLoop s (s.length + 70000)
          (blockTable s L (s.length + 70000) enc lastBlock NB2 dataZero).1.lengths
          (blockTable s L (s.length + 70000) enc lastBlock NB2 dataZero).1.distances
          (NB2 - lastBlock) lastBlock (NB2 - lastBlock + 1) 0 0 0 := rfl
    rw [hsel] at hmem huc hFdec ⊢
    set CT := selectLoop s (s.length + 70000)
      (blockTable s L (s.length + 70000) enc lastBlock NB2 dataZero).1.lengths
      (blockTable s L (s.length + 70000) enc lastBlock NB2 dataZero).1.distances
      (NB2 - lastBlock) lastBlock (NB2 - lastBlock + 1) 0 0 0 with hCT
    rw [memAt_append, le4_length] at hmem
    obtain ⟨hm4, hmC⟩ := hmem
    have hCTF : CT.length < Fdec := by
      rw [List.length_append, le4_length] at hFdec
      omega
    have hr := memAt_le4 mem st.cur CT.length hm4
    have hlen0 : 0 < CT.length := by
      rw [hCT]
      exact selectLoop_len_pos s (s.length + 70000) _ _ (NB2 - lastBlock) lastBlock
        (NB2 - lastBlock + 1) 0 0 0 (by omega) (by omega)
    obtain ⟨st2, hseq, hinv2, hcur2⟩ := selectLoop_sim s lastBlock (NB2 - lastBlock)
      (blockTable s L (s.length + 70000) enc lastBlock NB2 dataZero).1.lengths
      (blockTable s L (s.length + 70000) enc lastBlock NB2 dataZero).1.distances
      (s.length + 70000) hGT (by omega) (by omega)
      (NB2 - lastBlock + 1) 0 0 0 mem Fdec Fdec
      CT.length 0 ⟨st.cur + 4, st.hist, st.pos, st.out⟩
      (by omega) (by omega) (by omega) (fun h => absurd h (by omega))
      (by rw [← hCT]; omega) (by rw [← hCT]; omega)
      (by rw [show lastBlock + 0 - 0 = lastBlock from rfl]; exact hInv)
      hmC
      (by rw [← hCT]; omega)
    refine ⟨st2, ?_, ?_, ?_⟩
    · simp only [decodeBlockLoop]
      rw [hr.1, hr.2.1, hr.2.2.1, hr.2.2.2]
      rw [le4_assemble CT.length (by omega)]
      rw [Nat.mod_eq_of_lt (show CT.length < 2147483648 from by omega)]
      rw [if_neg (show ¬(CT.length = 0) from by omega)]
      rw [if_pos (show CT.length < 2147483648 from by omega)]
      rw [hseq]
      simp only []
      rw [if_neg (show ¬((false : Bool) = true) from by simp)]
    · rwa [show lastBlock + (NB2 - lastBlock) = NB2 from by omega] at hinv2
    · rw [hcur2, ← hCT]
      show st.cur + 4 + CT.length = st.cur + (le4 CT.length ++ CT).length
      rw [List.length_append, le4_length]
      omega
  · have hcb : (compressBlock s L (s.length + 70000) enc lastBlock NB2 dataZero).1 =
        le4 (NB2 - lastBlock + 2147483648) ++
          segBytes s lastBlock (NB2 - lastBlock) := by
      simp only [compressBlock]
      rw [if_neg huc, if_neg huc, if_neg huc]
    rw [hcb] at hmem ⊢
    rw [memAt_append, le4_length] at hmem
    obtain ⟨hm4, hmC⟩ := hmem
    have hr := memAt_le4 mem st.cur (NB2 - lastBlock + 2147483648) hm4
    have hcopy := copyLitsSlow_decInv mem (NB2 - lastBlock) (s.take lastBlock)
      ⟨st.cur + 4, st.hist, st.pos, st.out⟩ hInv
    have hms : memSeg mem (st.cur + 4) (NB2 - lastBlock) =
        segBytes s lastBlock (NB2 - lastBlock) := by
      have h2 := memSeg_of_memAt _ _ _ hmC
      rwa [segBytes_length] at h2
    rw [show (⟨st.cur + 4, st.hist, st.pos, st.out⟩ : DecState).cur = st.cur + 4
      from rfl, hms, take_append_seg s lastBlock NB2 (by omega) hnb] at hcopy
    refine ⟨copyLitsSlow mem (NB2 - lastBlock) ⟨st.cur + 4, st.hist, st.pos, st.out⟩,
      ?_, hcopy.1, ?_⟩
    · simp only [decodeBlockLoop]
      rw [hr.1, hr.2.1, hr.2.2.1, hr.2.2.2]
      rw [le4_assemble (NB2 - lastBlock + 2147483648) (by omega)]
      rw [show (NB2 - lastBlock + 2147483648) % 2147483648 = NB2 - lastBlock
        from by omega]
      rw [if_neg (show ¬(NB2 - lastBlock = 0) from by omega)]
      rw [if_neg (show ¬(NB2 - lastBlock + 2147483648 < 2147483648) from by omega)]
      simp only []
      rw [if_neg (show ¬((false : Bool) = true) from by simp)]
    · rw [hcopy.2]
      rw [List.length_append, le4_length, segBytes_length]
      omega

theorem compressBlock_len (s : List Nat) (L F : Nat) (enc : EncState)
    (lastBlock nextBlock dataZero : Nat) :
    4 ≤ (compressBlock s L F enc lastBlock nextBlock dataZero).1.length := by
  simp only [compressBlock, List.length_append, le4_length]
  omega

theorem blocks_decode (s : List Nat) (hb : ∀ b ∈ s, b < 256) (L : Nat) :
    ∀ efuel nextBlock dataZero (enc : EncState) (mem : Nat → Nat)
      (dfuel Fdec : Nat) (st : DecState) (M : Nat),
      EncOK s M enc → (M ≤ nextBlock - 12 ∨ nextBlock = s.length) →
      nextBlock ≤ s.length → s.length < efuel + nextBlock →
      (compressBlocksLoop s L (s.length + 70000) efuel nextBlock dataZero enc).length <
        dfuel →
      (compressBlocksLoop s L (s.length + 70000) efuel nextBlock dataZero enc).length ≤
        Fdec →
      decInv (s.take nextBlock) st →
      memAt mem st.cur
        (compressBlocksLoop s L (s.length + 70000) efuel nextBlock dataZero enc ++
          [0, 0, 0, 0]) →
      ∃ st2 : DecState,
        decodeBlockLoop mem Fdec false dfuel st = some (.ok st2) ∧
        decInv (s.take s.length) st2 := by
  intro efuel
  induction efuel with
  | zero =>
    intro nextBlock dataZero enc mem dfuel Fdec st M _ _ hnb hfe
    exact absurd hfe (by omega)
  | succ efuel ih =>
    intro nextBlock dataZero enc mem dfuel Fdec st M hok hMor hnb hfe hdf hFdec hInv hmem
    obtain ⟨d, rfl⟩ : ∃ d, dfuel = d + 1 := ⟨dfuel - 1, by omega⟩
    by_cases hend : nextBlock = s.length
    · rw [show compressBlocksLoop s L (s.length + 70000) (efuel + 1) nextBlock dataZero
          enc = [] from by simp only [compressBlocksLoop]; rw [if_pos hend],
        List.nil_append] at hmem
      have hm4 : memAt mem st.cur (le4 0) := hmem
      have hr := memAt_le4 mem st.cur 0 hm4
      refine ⟨⟨st.cur + 4, st.hist, st.pos, st.out⟩, ?_, ?_⟩
      · simp only [decodeBlockLoop]
        rw [hr.1, hr.2.1, hr.2.2.1, hr.2.2.2]
        rw [le4_assemble 0 (by omega)]
        rw [if_pos (show (0 : Nat) % 2147483648 = 0 from by norm_num)]
      · have hfin : decInv (s.take s.length) st := hend ▸ hInv
        exact hfin
    · simp only [compressBlocksLoop] at hmem hdf hFdec
      rw [if_neg hend] at hmem hdf hFdec
      set NB2 := min (nextBlock + 4194304) s.length with hNB2
      set dz2 := if 65535 < s.length - dataZero then dataZero + (s.length - dataZero -
        65535) else dataZero with hdz2
      set B2 := (compressBlock s L (s.length + 70000) enc nextBlock NB2 dataZero).2
        with hB2
      set R := compressBlocksLoop s L (s.length + 70000) efuel NB2 dz2 B2 with hR
      set B := (compressBlock s L (s.length + 70000) enc nextBlock NB2 dataZero).1
        with hB
      rw [List.append_assoc, memAt_append] at hmem
      obtain ⟨hmB, hmR⟩ := hmem
      rw [List.length_append] at hdf hFdec
      have hM' : M ≤ nextBlock - 12 := hMor.resolve_right hend
      have hB4 : 4 ≤ B.length := by
        rw [hB]
        exact compressBlock_len s L (s.length + 70000) enc nextBlock NB2 dataZero
      obtain ⟨st1, hstep, hinv1, hcur1⟩ := compressBlock_decode s hb L enc nextBlock
        NB2 dataZero M (by omega) (by omega) (by omega) hok (by omega) mem st d Fdec
        hInv (by rw [← hB]; exact hmB) (by rw [← hB]; omega)
      rw [← hB] at hcur1
      obtain ⟨hGT2, M2, hokT, hMT⟩ := blockTable_valid s hb L (s.length + 70000)
        nextBlock NB2 dataZero M enc (by omega) (by omega) hok (by omega)
      have hcb2 : B2 = (blockTable s L (s.length + 70000) enc nextBlock NB2 dataZero).2 := by
        rw [hB2]
        simp only [compressBlock]
      have hMor2 : M2 ≤ NB2 - 12 ∨ NB2 = s.length := by
        by_cases hc : nextBlock + 4194304 ≤ s.length
        · left
          omega
        · right
          omega
      obtain ⟨st2, h2a, h2b⟩ := ih NB2 dz2 B2 mem d Fdec st1 M2
        (by rw [hcb2]; exact hokT) hMor2 (by omega) (by omega)
        (by rw [← hR]; omega) (by rw [← hR]; omega) hinv1
        (by rw [← hR, hcur1]; exact hmR)
      exact ⟨st2, by rw [hstep]; exact h2a, h2b⟩

theorem getD_append_off (xs ys : List Nat) (j : Nat) :
    (xs ++ ys).getD (xs.length + j) 0 = ys.getD j 0 := by
  induction xs with
  | nil => rw [List.nil_append, List.length_nil, Nat.zero_add]
  | cons a l ih =>
    rw [List.cons_append, List.length_cons,
      show l.length + 1 + j = l.length + j + 1 from by omega,
      List.getD_cons_succ]
    exact ih

theorem unlz4_header (mem : Nat → Nat) (endp F : Nat)
    (h0 : mem 0 = 4) (h1 : mem 1 = 34) (h2 : mem 2 = 77) (h3 : mem 3 = 24)
    (h4 : mem 4 = 64) :
    unlz4 mem endp F =
      match decodeBlockLoop mem F false F ⟨7, fun _ => 0, 0, []⟩ with
      | none => none
      | some (.error e) => some (.error e)
      | some (.ok st) => some (.ok (st.out ++ histList st.hist st.pos)) := by
  simp only [unlz4]
  rw [h0, h1, h2, h3, h4]
  rw [if_neg (show ¬(4 + 256 * 34 + 65536 * 77 + 16777216 * 24 ≠ 0x184D2204) from
    by decide)]
  rw [if_neg (show ¬((64 : Nat) / 64 ≠ 1) from by decide)]
  rw [if_neg (show ¬((64 : Nat) &&& 8 ≠ 0) from by decide)]
  rw [if_neg (show ¬((64 : Nat) &&& 1 ≠ 0) from by decide)]
  rw [show (decide ((64 : Nat) &&& 16 ≠ 0)) = false from by decide]

theorem lz4_roundtrip (s : List Nat) (hb : ∀ b ∈ s, b < 256) (L : Nat) :
    unlz4List (lz4encode s L) = some (.ok s) := by
  have hE : lz4encode s L = frameHeader ++
      (compressBlocksLoop s L (s.length + 70000) (s.length + 2) 0 0 encInit ++
        [0, 0, 0, 0]) := by
    rw [lz4encode, List.append_assoc]
  have h0 : (lz4encode s L).getD 0 0 = 4 := by rw [hE]; rfl
  have h1 : (lz4encode s L).getD 1 0 = 34 := by rw [hE]; rfl
  have h2 : (lz4encode s L).getD 2 0 = 77 := by rw [hE]; rfl
  have h3 : (lz4encode s L).getD 3 0 = 24 := by rw [hE]; rfl
  have h4 : (lz4encode s L).getD 4 0 = 64 := by rw [hE]; rfl
  have hlenE : (lz4encode s L).length = 11 +
      (compressBlocksLoop s L (s.length + 70000) (s.length + 2) 0 0 encInit).length := by
    rw [hE]
    simp only [List.length_append, List.length_cons, List.length_nil]
    rw [show frameHeader.length = 7 from rfl]
    omega
  show unlz4 (fun i => (lz4encode s L).getD i 0) (lz4encode s L).length
    ((lz4encode s L).length + 70000) = some (.ok s)
  rw [unlz4_header (fun i => (lz4encode s L).getD i 0) (lz4encode s L).length
    ((lz4encode s L).length + 70000) h0 h1 h2 h3 h4]
  obtain ⟨st2, hdec, hinv2⟩ := blocks_decode s hb L (s.length + 2) 0 0 encInit
    (fun i => (lz4encode s L).getD i 0)
    ((lz4encode s L).length + 70000) ((lz4encode s L).length + 70000)
    ⟨7, fun _ => 0, 0, []⟩ 0
    (encInit_encOK s) (Or.inl (by omega)) (by omega) (by omega)
    (by omega) (by omega)
    (by
      rw [List.take_zero]
      exact ⟨rfl, rfl, fun k hk1 hk2 _ => absurd (hk1.trans hk2) (by decide)⟩)
    (by
      intro j hj
      show (lz4encode s L).getD (7 + j) 0 =
        (compressBlocksLoop s L (s.length + 70000) (s.length + 2) 0 0 encInit ++
          [0, 0, 0, 0]).getD j 0
      rw [hE, show (7 : Nat) + j = frameHeader.length + j from rfl, getD_append_off])
  rw [hdec]
  simp only []
  have hflush := decInv_flush (s.take s.length) st2 hinv2
  rw [List.take_length] at hflush
  rw [hflush]

/-- C1: round-trip — for every byte sequence `s` and every `maxChainLength`
    `L ∈ {0, 1, 3, 6, 9, 65535}`, decoding the frame the encoder produces on `s`
    with an empty dictionary yields exactly `s`. -/
theorem claim1_roundtrip (s : List Nat) (hb : ∀ b ∈ s, b < 256) (L : Nat)
    (hL : L = 0 ∨ L = 1 ∨ L = 3 ∨ L = 6 ∨ L = 9 ∨ L = 65535) :
    unlz4List (lz4encode s L) = some (.ok s) :=
  lz4_roundtrip s hb L

theorem claim1_roundtrip_witness :
    ((∀ b ∈ helloWorld, b < 256) ∧ ((9 : Nat) = 0 ∨ (9 : Nat) = 1 ∨ (9 : Nat) = 3 ∨
      (9 : Nat) = 6 ∨ (9 : Nat) = 9 ∨ (9 : Nat) = 65535)) ∧
    unlz4List (lz4encode helloWorld 9) = some (.ok helloWorld) :=
  ⟨⟨by decide, by decide⟩, claim1_roundtrip helloWorld (by decide) 9 (by decide)⟩

theorem decodeSeqLoop_err (mem : Nat → Nat) (F blockSize : Nat) :
    ∀ fuel blockOffset st e,
      decodeSeqLoop mem F blockSize fuel blockOffset st = some (.error e) →
      e = DecErr.invalidOffset := by
  intro fuel
  induction fuel with
  | zero =>
    intro bo st e h
    exact absurd h (by simp [decodeSeqLoop])
  | succ fuel ih =>
    intro bo st e h
    simp only [decodeSeqLoop] at h
    split at h
    · split at h
      · exact absurd h (by simp)
      · split at h
        · split at h
          · exact absurd h (by simp)
          · exact absurd h (by simp)
        · split at h <;>
            (split at h
             · simp only [Option.some.injEq, Except.error.injEq] at h
               exact h.symm
             · split at h
               · exact absurd h (by simp)
               · exact ih _ _ _ h)
    · exact absurd h (by simp)

theorem decodeBlockLoop_err (mem : Nat → Nat) (F : Nat) (hbc : Bool) :
    ∀ fuel st e,
      decodeBlockLoop mem F hbc fuel st = some (.error e) →
      e = DecErr.invalidOffset := by
  intro fuel
  induction fuel with
  | zero =>
    intro st e h
    exact absurd h (by simp [decodeBlockLoop])
  | succ fuel ih =>
    intro st e h
    simp only [decodeBlockLoop] at h
    split at h
    · exact absurd h (by simp)
    · split at h
      · exact absurd h (by simp)
      · rename_i e1 heq
        simp only [Option.some.injEq, Except.error.injEq] at h
        subst h
        split at heq
        · exact decodeSeqLoop_err mem F _ _ _ _ _ heq
        · exact absurd heq (by simp)
      · exact ih _ _ h

/-- C2: the decoder reports a fatal error exactly for a bad 4-byte magic
    (`invalidSignature`), version bits other than 01 (`unsupportedVersion`),
    or a zero match offset inside a compressed block (`invalidOffset`); these
    three constructors exhaust the error kind, so no recoverable kind exists,
    and on every frame the conformant encoder produces the decoder reports
    no error at all. -/
theorem claim2_decoder_errors :
    (∀ (mem : Nat → Nat) (endp F : Nat) (e : DecErr),
        unlz4 mem endp F = some (.error e) →
        e = .invalidSignature ∨ e = .unsupportedVersion ∨ e = .invalidOffset) ∧
    (∀ (mem : Nat → Nat) (endp F : Nat),
        mem 0 + 256 * mem 1 + 65536 * mem 2 + 16777216 * mem 3 ≠ 0x184D2204 →
        unlz4 mem endp F = some (.error .invalidSignature)) ∧
    (∀ (mem : Nat → Nat) (endp F : Nat),
        mem 0 + 256 * mem 1 + 65536 * mem 2 + 16777216 * mem 3 = 0x184D2204 →
        mem 4 / 64 ≠ 1 →
        unlz4 mem endp F = some (.error .unsupportedVersion)) ∧
    (∀ (mem : Nat → Nat) (endp F : Nat) (e : DecErr),
        mem 0 + 256 * mem 1 + 65536 * mem 2 + 16777216 * mem 3 = 0x184D2204 →
        mem 4 / 64 = 1 →
        unlz4 mem endp F = some (.error e) → e = .invalidOffset) ∧
    (∀ (s : List Nat) (L : Nat), (∀ b ∈ s, b < 256) →
        ∀ e : DecErr, unlz4List (lz4encode s L) ≠ some (.error e)) := by
  have hC2 : ∀ (mem : Nat → Nat) (endp F : Nat),
      mem 0 + 256 * mem 1 + 65536 * mem 2 + 16777216 * mem 3 ≠ 0x184D2204 →
      unlz4 mem endp F = some (.error .invalidSignature) := by
    intro mem endp F hsig
    simp only [unlz4]
    rw [if_pos hsig]
  have hC3 : ∀ (mem : Nat → Nat) (endp F : Nat),
      mem 0 + 256 * mem 1 + 65536 * mem 2 + 16777216 * mem 3 = 0x184D2204 →
      mem 4 / 64 ≠ 1 →
      unlz4 mem endp F = some (.error .unsupportedVersion) := by
    intro mem endp F hsig hver
    simp only [unlz4]
    rw [if_neg (not_ne_iff.mpr hsig), if_pos hver]
  have hC4 : ∀ (mem : Nat → Nat) (endp F : Nat) (e : DecErr),
      mem 0 + 256 * mem 1 + 65536 * mem 2 + 16777216 * mem 3 = 0x184D2204 →
      mem 4 / 64 = 1 →
      unlz4 mem endp F = some (.error e) → e = .invalidOffset := by
    intro mem endp F e hsig hver h
    simp only [unlz4] at h
    rw [if_neg (not_ne_iff.mpr hsig), if_neg (not_ne_iff.mpr hver)] at h
    split at h
    · exact absurd h (by simp)
    · rename_i e1 heq
      simp only [Option.some.injEq, Except.error.injEq] at h
      subst h
      exact decodeBlockLoop_err mem F _ _ _ _ heq
    · exact absurd h (by simp)
  refine ⟨?_, hC2, hC3, hC4, ?_⟩
  · intro mem endp F e h
    by_cases hsig : mem 0 + 256 * mem 1 + 65536 * mem 2 + 16777216 * mem 3 = 0x184D2204
    · by_cases hver : mem 4 / 64 = 1
      · exact Or.inr (Or.inr (hC4 mem endp F e hsig hver h))
      · rw [hC3 mem endp F hsig hver] at h
        simp only [Option.some.injEq, Except.error.injEq] at h
        exact Or.inr (Or.inl h.symm)
    · rw [hC2 mem endp F hsig] at h
      simp only [Option.some.injEq, Except.error.injEq] at h
      exact Or.inl h.symm
  · intro s L hb e h
    rw [lz4_roundtrip s hb L] at h
    exact absurd h (by simp)

theorem claim2_decoder_errors_witness :
    ((fun _ => 0 : Nat → Nat) 0 + 256 * (fun _ => 0 : Nat → Nat) 1 +
      65536 * (fun _ => 0 : Nat → Nat) 2 + 16777216 * (fun _ => 0 : Nat → Nat) 3 ≠
      0x184D2204) ∧
    unlz4 (fun _ => 0) 0 5 = some (.error .invalidSignature) :=
  ⟨by decide, claim2_decoder_errors.2.1 (fun _ => 0) 0 5 (by decide)⟩

theorem walkMatches_mem (lengths dists : Nat → Nat) (n base : Nat) :
    ∀ fuel offset m, m ∈ walkMatches lengths dists n base fuel offset →
      ∃ i, i < n ∧ 1 < lengths i ∧ m = (base + i, lengths i, dists i) := by
  intro fuel
  induction fuel with
  | zero =>
    intro offset m h
    exact absurd h (by simp [walkMatches])
  | succ fuel ih =>
    intro offset m h
    simp only [walkMatches] at h
    by_cases h1 : offset < n
    · rw [if_pos h1] at h
      by_cases h2 : lengths offset ≤ 1
      · rw [if_pos h2] at h
        exact ih _ _ h
      · rw [if_neg h2] at h
        rcases List.mem_cons.mp h with hm | hm
        · exact ⟨offset, h1, by omega, hm⟩
        · exact ih _ _ hm
    · rw [if_neg h1] at h
      exact absurd h (by simp)

theorem emittedMatchesLoop_safe (s : List Nat) (hb : ∀ b ∈ s, b < 256) (L : Nat) :
    ∀ efuel nextBlock dataZero (enc : EncState) (M : Nat),
      EncOK s M enc → (M ≤ nextBlock - 12 ∨ nextBlock = s.length) →
      nextBlock ≤ s.length →
      ∀ m ∈ emittedMatchesLoop s L (s.length + 70000) efuel nextBlock dataZero enc,
        m.1 + 12 ≤ s.length ∧ m.1 + m.2.1 + 5 ≤ s.length := by
  intro efuel
  induction efuel with
  | zero =>
    intro nextBlock dataZero enc M _ _ _ m hm
    exact absurd hm (by simp [emittedMatchesLoop])
  | succ efuel ih =>
    intro nextBlock dataZero enc M hok hMor hnb m hm
    simp only [emittedMatchesLoop] at hm
    by_cases hend : nextBlock = s.length
    · rw [if_pos hend] at hm
      exact absurd hm (by simp)
    · rw [if_neg hend] at hm
      set NB2 := min (nextBlock + 4194304) s.length with hNB2
      set dz2 := if 65535 < s.length - dataZero then dataZero + (s.length - dataZero -
        65535) else dataZero with hdz2
      have hM' : M ≤ nextBlock - 12 := hMor.resolve_right hend
      obtain ⟨hGT, M2, hokT, hMT⟩ := blockTable_valid s hb L (s.length + 70000)
        nextBlock NB2 dataZero M enc (by omega) (by omega) hok (by omega)
      rcases List.mem_append.mp hm with hm1 | hm2
      · by_cases huc : (selectBestMatches s (s.length + 70000)
            (blockTable s L (s.length + 70000) enc nextBlock NB2 dataZero).1
            (if L = 0 then 0 else NB2 - nextBlock) nextBlock).length <
              NB2 - nextBlock ∧ L ≠ 0
        · rw [if_pos huc] at hm1
          rw [if_neg huc.2] at hm1
          obtain ⟨i, hin, hl1, hmeq⟩ := walkMatches_mem _ _ _ _ _ _ _ hm1
          obtain ⟨hL4, hO12, hOL5, -⟩ := (hGT i).resolve_left (by omega)
          subst hmeq
          constructor
          · show nextBlock + i + 12 ≤ s.length
            omega
          · show nextBlock + i + (blockTable s L (s.length + 70000) enc nextBlock NB2
              dataZero).1.lengths i + 5 ≤ s.length
            omega
        · rw [if_neg huc] at hm1
          exact absurd hm1 (by simp)
      · have hMor2 : M2 ≤ NB2 - 12 ∨ NB2 = s.length := by
          by_cases hc : nextBlock + 4194304 ≤ s.length
          · left
            omega
          · right
            omega
        exact ih NB2 dz2 (blockTable s L (s.length + 70000) enc nextBlock NB2
          dataZero).2 M2 hokT hMor2 (by omega) m hm2

/-- C5 (amended): no emitted match starts within the last eleven bytes of the
    stream — every emitted match's starting position `p` satisfies
    `p + 12 ≤ streamLength` (a match may start exactly at `streamLength - 12`,
    see the counterexample), and the last five bytes of the stream are always
    emitted as literals: `p + length + 5 ≤ streamLength` for every emitted
    match. -/
theorem claim5_no_late_matches (s : List Nat) (hb : ∀ b ∈ s, b < 256) (L : Nat) :
    ∀ m ∈ emittedMatches s L, m.1 + 12 ≤ s.length ∧ m.1 + m.2.1 + 5 ≤ s.length := by
  intro m hm
  rw [emittedMatches] at hm
  exact emittedMatchesLoop_safe s hb L (s.length + 2) 0 0 encInit 0
    (encInit_encOK s) (Or.inl (by omega)) (by omega) m hm

theorem claim5_no_late_matches_witness :
    (∀ b ∈ abcd4, b < 256) ∧
    ∀ m ∈ emittedMatches abcd4 65535,
      m.1 + 12 ≤ abcd4.length ∧ m.1 + m.2.1 + 5 ≤ abcd4.length :=
  ⟨by decide, claim5_no_late_matches abcd4 (by decide) 65535⟩

theorem claim7_greedy_skip_witness :
    ¬((0 : Nat) < 0 ∧ byteAt [] 0 = byteAt [] (0 - 1) ∧
       (⟨encInit, ⟨fun _ => 0, fun _ => 0⟩, 5, false⟩ : BlockSt).m.distances (0 - 1 - 0) = 1 ∧
       65299 < (⟨encInit, ⟨fun _ => 0, fun _ => 0⟩, 5, false⟩ : BlockSt).m.lengths
         (0 - 1 - 0)) ∧
    (mfStep [] 3 5 0 24 0 0 ⟨encInit, ⟨fun _ => 0, fun _ => 0⟩, 5, false⟩).enc =
      (chainUpdate [] 0 encInit 0).1 :=
  ⟨by decide,
   claim7_greedy_skip.2.1 [] 3 5 0 24 0 0 ⟨encInit, ⟨fun _ => 0, fun _ => 0⟩, 5, false⟩
     (by decide)⟩

end Smallz4
